import Mathlib

/-
Verification of the regex-to-NFA compilation pipeline (`regex_to_NFA.py`)
and the NFA-to-DFA subset construction (`nfa_to_dfa.py`) of this repository.

Embedding choices:
* Machine states are `Nat` (the `itertools.count` allocator yields 0,1,2,...).
* A Python `set` of states is embedded as a duplicate-free `List Nat` in
  insertion order (Python's iteration order over a set is unspecified, and
  every use below is insensitive to it); `x in s` is list membership,
  `s.add(x)` appends when absent, `set(xs)` is `xs.dedup`.  A `frozenset`
  (which must compare by value) is embedded as the canonical sorted
  duplicate-free list `freeze xs`, so value equality of frozensets is plain
  list equality.
* The Thompson-construction transition map (a `defaultdict(list)` from state
  to a list of `(symbol, target)` pairs) is embedded as a flat list of edges
  `(source, symbol, target)`; `tr.get(s, [])` is the sublist of edges with
  source `s`, `tr1[a].append(p)` appends one edge, and the dict-merge loops
  (`tr1[k].extend(v)`) append whole edge lists.  The symbol `none : Option
  Char` models the epsilon marker `EPS = None`.
* The dict-of-dicts transition table of `nfa_to_dfa.py` (state -> symbol ->
  set of states) is embedded as an association list `state -> (symbol ->
  target list)` whose symbol key `none` models the epsilon key `''`.
* The worklist loops (`eps_closure`, `epsilon_closure`, the subset
  construction) are written with an explicit fuel argument; each wrapper
  passes fuel provably large enough for the loop to drain its worklist, and
  the termination theorems below prove that the chosen fuel suffices.
* Python code that would raise `IndexError` (popping an operand from an
  empty stack in `build`, or `stack[0]` of an empty stack) returns `none`.
-/

set_option maxRecDepth 100000

/-! ### `regex_to_NFA.py`: pattern normalizer -/

/-- One step of `add_concat`: `prev` is the previous character (`none` at the
start, where Python's `if prev` is falsy); a `'.'` concatenation marker is
inserted when `prev not in '|('` and `c not in '|)*+?'`. -/
def addConcatAux : Option Char → List Char → List Char
  | _, [] => []
  | none, c :: r => c :: addConcatAux (some c) r
  | some p, c :: r =>
      if (p != '|' && p != '(') &&
          (c != '|' && c != ')' && c != '*' && c != '+' && c != '?') then
        '.' :: c :: addConcatAux (some c) r
      else
        c :: addConcatAux (some c) r

/-- `add_concat(r)` of `regex_to_NFA.py`. -/
def add_concat (r : List Char) : List Char := addConcatAux none r

/-- The precedence table `prec = {'*': 3, '+': 3, '?': 3, '.': 2, '|': 1}`,
with `prec.get(c, 0)` semantics for keys not in the table. -/
def precOf (c : Char) : Nat :=
  if c = '*' || c = '+' || c = '?' then 3
  else if c = '.' then 2
  else if c = '|' then 1
  else 0

/-- Membership test `c in prec` of the shunting-yard loop. -/
def isOp (c : Char) : Bool :=
  c = '*' || c = '+' || c = '?' || c = '.' || c = '|'

/-- `while st and p(st[-1]): out.append(st.pop())` — pop operators from the
stack (head = top) onto the output while the predicate holds. -/
def popWhile (p : Char → Bool) : List Char → List Char → List Char × List Char
  | out, [] => (out, [])
  | out, t :: st => if p t then popWhile p (out ++ [t]) st else (out, t :: st)

/-- The loop body of `to_postfix`: `out` is the emitted output, `st` the
operator stack with its top at the head.  At end of input
`out.extend(reversed(st))` appends the stack top-first, which is exactly
`out ++ st` in this head-is-top representation.  For `')'` the code pops to
the output until a `'('` (or the stack empties) and then executes
`st.pop() if st else None`, i.e. drops the top if any. -/
def toPostLoop : List Char → List Char → List Char → List Char
  | out, st, [] => out ++ st
  | out, st, c :: r =>
      if c = '(' then toPostLoop out (c :: st) r
      else if c = ')' then
        toPostLoop (popWhile (fun t => t != '(') out st).1
          ((popWhile (fun t => t != '(') out st).2.tail) r
      else if isOp c then
        toPostLoop (popWhile (fun t => t != '(' && precOf c ≤ precOf t) out st).1
          (c :: (popWhile (fun t => t != '(' && precOf c ≤ precOf t) out st).2) r
      else toPostLoop (out ++ [c]) st r

/-- `to_postfix(r)` of `regex_to_NFA.py` (renamed `toPost` here). -/
def toPost (r : List Char) : List Char := toPostLoop [] [] r

/-! ### `regex_to_NFA.py`: Thompson construction -/

/-- One transition edge `(source, symbol, target)`; symbol `none` is epsilon. -/
abbrev Edge := Nat × Option Char × Nat

/-- A flat transition map: the list of all edges. -/
abbrev Edges := List Edge

/-- An operand-stack fragment `(start, accept set, transition map)` as pushed
by `build`. -/
abbrev Frag := Nat × List Nat × Edges

instance : DecidableEq Frag := instDecidableEqProd

/-- One iteration of the `for t in postfix` loop of `build`: `gen` is the
next fresh state id of the `count()` generator, `stack` the operand stack
with its top at the head (`stack.pop()` pops the head; `s2` is popped before
`s1`).  Popping from a too-short stack models Python's `IndexError` as
`none`.  The accept-set union `acc1 | acc2` of the `'|'` case is
`(acc1 ++ acc2).dedup`. -/
def buildStep (gen : Nat) (stack : List Frag) (t : Char) : Option (Nat × List Frag) :=
  if t = '.' then
    match stack with
    | s2 :: s1 :: stk =>
        some (gen,
          (s1.1, s2.2.1,
            (s1.2.2 ++ s1.2.1.map (fun a => (a, none, s2.1))) ++ s2.2.2)
            :: stk)
    | _ => none
  else if t = '|' then
    match stack with
    | s2 :: s1 :: stk =>
        some (gen + 2,
          (gen, [gen + 1],
            ((s1.2.2 ++ s2.2.2) ++ [(gen, none, s1.1), (gen, none, s2.1)]) ++
              ((s1.2.1 ++ s2.2.1).dedup).map (fun a => (a, none, gen + 1)))
            :: stk)
    | _ => none
  else if t = '*' || t = '+' || t = '?' then
    match stack with
    | s0 :: stk =>
        some (gen + 2,
          (gen, [gen + 1],
            ((s0.2.2 ++
              (if t = '?' then [(gen, none, s0.1), (gen, none, gen + 1)]
                else [(gen, none, s0.1)])) ++
              s0.2.1.flatMap (fun a =>
                if t != '?' then [(a, none, s0.1), (a, none, gen + 1)]
                else [(a, none, gen + 1)])) ++
              (if t != '?' then [(gen, none, gen + 1)] else []))
            :: stk)
    | _ => none
  else
    some (gen + 2, (gen, [gen + 1], [(gen, some t, gen + 1)]) :: stack)

/-- The `for t in postfix` loop of `build`. -/
def buildLoop : Nat → List Frag → List Char → Option (Nat × List Frag)
  | gen, stack, [] => some (gen, stack)
  | gen, stack, t :: rest =>
      match buildStep gen stack t with
      | none => none
      | some r => buildLoop r.1 r.2 rest

/-- `build(postfix)` of `regex_to_NFA.py`: run the loop from a fresh counter
and an empty stack, then `return stack[0]` — the bottom of the stack, which
in the head-is-top representation is the last element (`none` when empty,
modelling the `IndexError`). -/
def build (pf : List Char) : Option Frag :=
  match buildLoop 0 [] pf with
  | none => none
  | some r => r.2.getLast?

/-! ### The worklist closure computation (shared shape of
`eps_closure` in `regex_to_NFA.py` and `NFA.epsilon_closure` in
`nfa_to_dfa.py`) -/

/-- The inner loop body: for every target `d` of the popped state, if `d` is
previously unseen add it to the result set and push it onto the stack. -/
def addNew : List Nat → List Nat → List Nat → List Nat × List Nat
  | res, stk, [] => (res, stk)
  | res, stk, d :: ds =>
      if d ∈ res then addNew res stk ds else addNew (res ++ [d]) (d :: stk) ds

/-- The worklist loop, generic in the epsilon-successor function `next` and
run on explicit fuel: pop a state `s` (the stack's head is its top), process
its epsilon targets with `addNew`, and recurse. -/
def closureAux (next : Nat → List Nat) : Nat → List Nat → List Nat → List Nat
  | 0, res, _ => res
  | _ + 1, res, [] => res
  | fuel + 1, res, s :: stk =>
      closureAux next fuel (addNew res stk (next s)).1 (addNew res stk (next s)).2

/-- The targets reachable from `s` by one edge labelled `sym`, in edge-list
order: `[d for (sym0, d) in tr.get(s, []) if sym0 == sym]`. -/
def targetsA (tr : Edges) (s : Nat) (sym : Option Char) : List Nat :=
  tr.filterMap (fun e => if e.1 = s ∧ e.2.1 = sym then some e.2.2 else none)

/-- The epsilon targets of `s`: the `if sym is EPS` filter of `eps_closure`. -/
def epsTargetsA (tr : Edges) (s : Nat) : List Nat := targetsA tr s none

/-- Every target mentioned in the transition map (the finite universe that
bounds the worklist). -/
def allTargetsA (tr : Edges) : List Nat := (tr.map (fun e => e.2.2)).dedup

/-- Fuel sufficient for the worklist: each iteration pops one entry, and each
state of the target universe is pushed at most once. -/
def closureFuelA (tr : Edges) (states : List Nat) : Nat :=
  2 * (allTargetsA tr).length + states.length + 1

/-- `eps_closure(states, tr)` of `regex_to_NFA.py`: `res, stk = set(states),
list(states)`, then the worklist loop. -/
def eps_closure (states : List Nat) (tr : Edges) : List Nat :=
  closureAux (epsTargetsA tr) (closureFuelA tr states) states.dedup states

/-- `move(states, ch, tr)` of `regex_to_NFA.py` (a set comprehension over
all `ch`-labelled edges leaving `states`). -/
def moveA (states : List Nat) (ch : Char) (tr : Edges) : List Nat :=
  (states.flatMap (fun s => targetsA tr s (some ch))).dedup

/-- The `for ch in s` loop of `matches`: step the current closed state set,
returning `False` as soon as it becomes empty, and finally test
`bool(cur & acc)`. -/
def matchesLoop (tr : Edges) (acc : List Nat) : List Nat → List Char → Bool
  | cur, [] => cur.any (fun a => acc.contains a)
  | cur, ch :: s =>
      if (eps_closure (moveA cur ch tr) tr).isEmpty then false
      else matchesLoop tr acc (eps_closure (moveA cur ch tr) tr) s

/-- `matches(nfa, s)` of `regex_to_NFA.py` (renamed: `matches` is reserved
in Lean). -/
def matchesNFA (nfa : Frag) (s : List Char) : Bool :=
  matchesLoop nfa.2.2 nfa.2.1 (eps_closure [nfa.1] nfa.2.2) s

/-- The `__main__` pipeline of `regex_to_NFA.py`:
`build(to_postfix(add_concat(regex)))`. -/
def compileNFA (p : String) : Option Frag := build (toPost (add_concat p.toList))

/-- Run the whole pipeline: compile the pattern and match the input
(`none` when `build` would raise). -/
def pipelineMatches (p : String) (s : String) : Option Bool :=
  (compileNFA p).map (fun nfa => matchesNFA nfa s.toList)


/-! ### `nfa_to_dfa.py`: data model -/

/-- The dict-of-dicts transition table `state -> symbol -> set of states`;
the symbol key `none` models the epsilon key `''`. -/
abbrev TransB := List (Nat × List (Option Char × List Nat))

/-- The `NFA` class of `nfa_to_dfa.py`. -/
structure NFAb where
  states : List Nat
  alphabet : List Char
  transitions : TransB
  start_state : Nat
  accept_states : List Nat

/-- `self.transitions.get(state, {})`. -/
def rowB (tr : TransB) (s : Nat) : List (Option Char × List Nat) :=
  (tr.lookup s).getD []

/-- `self.transitions[state][sym]` guarded by `sym in self.transitions.get(state, {})`
(the empty list when either key is missing). -/
def targetsB (tr : TransB) (s : Nat) (sym : Option Char) : List Nat :=
  ((rowB tr s).lookup sym).getD []

/-- The epsilon targets used by `NFA.epsilon_closure` (`'' in ...` then
`self.transitions[state]['']`). -/
def epsTargetsB (tr : TransB) (s : Nat) : List Nat := targetsB tr s none

/-- Every target mentioned anywhere in the table (the finite universe that
bounds the worklists of this module). -/
def allTargetsB (tr : TransB) : List Nat :=
  (tr.flatMap (fun r => r.2.flatMap (fun p => p.2))).dedup

/-- Fuel sufficient for the closure worklist of this module. -/
def closureFuelB (tr : TransB) (states : List Nat) : Nat :=
  2 * (allTargetsB tr).length + states.length + 1

/-- `NFA.epsilon_closure(self, state_set)` of `nfa_to_dfa.py`:
`stack = list(state_set); closure = set(state_set)`, then the worklist loop
(the same loop shape as `eps_closure` above). -/
def NFAb.epsilon_closure (nfa : NFAb) (state_set : List Nat) : List Nat :=
  closureAux (epsTargetsB nfa.transitions)
    (closureFuelB nfa.transitions state_set) state_set.dedup state_set

/-- `frozenset(xs)`: the canonical (sorted, duplicate-free) value of a set of
NFA states, so that structurally equal sets are the identical list. -/
def freeze (l : List Nat) : List Nat := List.insertionSort (· ≤ ·) l.dedup

/-- The inner double loop of the subset construction: the set
`next_states = union of epsilon_closure({target})` over every `target`
reachable from a state of `T` by `sym` (before freezing). -/
def moveClosure (nfa : NFAb) (T : List Nat) (sym : Char) : List Nat :=
  (T.flatMap (fun st => (targetsB nfa.transitions st (some sym)).flatMap
    (fun t => nfa.epsilon_closure [t]))).dedup

/-- The DFA transition table: frozen state-set -> (symbol -> frozen state-set). -/
abbrev DTrans := List (List Nat × List (Char × List Nat))

/-- The `for symbol in nfa.alphabet` loop of `nfa_to_dfa`, processing one
unmarked DFA state `T`: accumulate the discovered DFA states (`sts`, the
growing `dfa_states`), the worklist (`unm`, head = next to pop) and the
transition entry of `T`.  A non-empty `next_states` is always recorded in
the entry; it is enqueued only when previously unseen. -/
def processSymbols (nfa : NFAb) (T : List Nat) :
    List Char → List (List Nat) → List (List Nat) → List (Char × List Nat) →
    List (List Nat) × List (List Nat) × List (Char × List Nat)
  | [], sts, unm, entry => (sts, unm, entry)
  | sym :: syms, sts, unm, entry =>
      if (moveClosure nfa T sym).isEmpty then processSymbols nfa T syms sts unm entry
      else
        if freeze (moveClosure nfa T sym) ∈ sts then
          processSymbols nfa T syms sts unm
            (entry ++ [(sym, freeze (moveClosure nfa T sym))])
        else
          processSymbols nfa T syms (sts ++ [freeze (moveClosure nfa T sym)])
            (freeze (moveClosure nfa T sym) :: unm)
            (entry ++ [(sym, freeze (moveClosure nfa T sym))])

/-- The `while unmarked_states` loop of `nfa_to_dfa`, on explicit fuel:
pop an unmarked state (head = top, as `list.pop()` pops the last-pushed),
process every alphabet symbol, and record the state's transition entry. -/
def dfaLoop (nfa : NFAb) : Nat → List (List Nat) → List (List Nat) → DTrans →
    List (List Nat) × DTrans
  | 0, sts, _, tra => (sts, tra)
  | _ + 1, sts, [], tra => (sts, tra)
  | fuel + 1, sts, T :: unm, tra =>
      match processSymbols nfa T nfa.alphabet sts unm [] with
      | (sts2, unm2, entry) => dfaLoop nfa fuel sts2 unm2 ((T, entry) :: tra)

/-- The `DFA` class of `nfa_to_dfa.py`. -/
structure DFAb where
  states : List (List Nat)
  alphabet : List Char
  transitions : DTrans
  start_state : List Nat
  accept_states : List (List Nat)

/-- The finite universe of NFA states the subset construction can meet:
the start state and every transition target. -/
def univB (nfa : NFAb) : List Nat := (nfa.start_state :: allTargetsB nfa.transitions).dedup

/-- Fuel sufficient for the subset-construction worklist: at most
`2 ^ |univB|` distinct frozen state sets exist, each is enqueued at most
once, and each loop iteration pops one. -/
def dfaFuel (nfa : NFAb) : Nat := 2 * 2 ^ (univB nfa).length + 2

/-- `nfa_to_dfa(nfa)` of `nfa_to_dfa.py`: seed the worklist with the frozen
epsilon closure of the start state, run the construction loop, and mark as
accepting every DFA state that intersects the NFA's accept set
(`any(s in nfa.accept_states for s in state_set)`). -/
def nfa_to_dfa (nfa : NFAb) : DFAb :=
  { states := (dfaLoop nfa (dfaFuel nfa)
      [freeze (nfa.epsilon_closure [nfa.start_state])]
      [freeze (nfa.epsilon_closure [nfa.start_state])] []).1
    alphabet := nfa.alphabet
    transitions := (dfaLoop nfa (dfaFuel nfa)
      [freeze (nfa.epsilon_closure [nfa.start_state])]
      [freeze (nfa.epsilon_closure [nfa.start_state])] []).2
    start_state := freeze (nfa.epsilon_closure [nfa.start_state])
    accept_states := (dfaLoop nfa (dfaFuel nfa)
      [freeze (nfa.epsilon_closure [nfa.start_state])]
      [freeze (nfa.epsilon_closure [nfa.start_state])] []).1.filter
        (fun T => T.any (fun s => nfa.accept_states.contains s)) }

/-- The `for symbol in string` loop of `DFA.accepts`: an out-of-alphabet
symbol returns `False`; a missing transition
(`self.transitions.get(current_state, {}).get(symbol)` is `None`) returns
`False`; at the end, accept iff the current state is an accept state. -/
def acceptsFrom (d : DFAb) : List Nat → List Char → Bool
  | cur, [] => d.accept_states.contains cur
  | cur, sym :: s =>
      if sym ∈ d.alphabet then
        match ((d.transitions.lookup cur).getD []).lookup sym with
        | none => false
        | some nxt => acceptsFrom d nxt s
      else false

/-- `DFA.accepts(self, string)` of `nfa_to_dfa.py`. -/
def DFAb.accepts (d : DFAb) (s : List Char) : Bool := acceptsFrom d d.start_state s

/-! ### The glue between the two modules -/

/-- The alphabet of a Thompson transition map: its non-epsilon edge labels. -/
def alphabetOfA (tr : Edges) : List Char := (tr.filterMap (fun e => e.2.1)).dedup

/-- The states that are an edge source. -/
def sourcesA (tr : Edges) : List Nat := (tr.map (fun e => e.1)).dedup

/-- The symbols labelling some edge out of `s`. -/
def symsAtA (tr : Edges) (s : Nat) : List (Option Char) :=
  ((tr.filter (fun e => e.1 == s)).map (fun e => e.2.1)).dedup

/-- The flat edge list regrouped as the dict-of-dicts table of
`nfa_to_dfa.py`. -/
def toTransB (tr : Edges) : TransB :=
  (sourcesA tr).map (fun s =>
    (s, (symsAtA tr s).map (fun sym => (sym, targetsA tr s sym))))

/-- Modelled from the spec: the repository never connects its two modules —
`regex_to_NFA.py` produces a bare tuple `(start, accept, transitions)` with
epsilon `None`, while `nfa_to_dfa.py` consumes an `NFA` object with a
states set, an alphabet, a dict-of-dicts transition table and epsilon key
`''`.  Following §3 of the spec ("NFA: {states, alphabet, transitions:
State × (Symbol ∪ {ε}) → set<State>, start, accept}") and §6
(`determinize(nfa: NFA)`), the tuple is repackaged: states = every state
mentioned, alphabet = every non-epsilon edge label, transitions = the same
edges regrouped by source and symbol. -/
def nfaOfFrag (f : Frag) : NFAb :=
  { states := ((f.1 :: f.2.1) ++ (sourcesA f.2.2 ++ allTargetsA f.2.2)).dedup
    alphabet := alphabetOfA f.2.2
    transitions := toTransB f.2.2
    start_state := f.1
    accept_states := f.2.1 }

/-- The right-hand side of the equivalence claim:
`matches(determinize(NFA(p)), s)`. -/
def pipelineDFAMatches (p : String) (s : String) : Option Bool :=
  (compileNFA p).map (fun nfa => (nfa_to_dfa (nfaOfFrag nfa)).accepts s.toList)


/-! ### Definitions used only by the verification -/

/-- `res` is closed under the successor function `next`. -/
def ClosedL (next : Nat → List Nat) (res : List Nat) : Prop :=
  ∀ x ∈ res, ∀ d ∈ next x, d ∈ res

/-- Worklist invariant: every member of `res` is either still pending on the
stack or has all its successors already in `res`. -/
def PendingL (next : Nat → List Nat) (res stk : List Nat) : Prop :=
  ∀ x ∈ res, x ∈ stk ∨ ∀ d ∈ next x, d ∈ res

/-- The transition entry the symbol loop of the subset construction produces
for the DFA state `T`, restricted to the symbols `syms` (the recorded
`(symbol, frozen target)` pairs, in symbol order, skipping empty targets). -/
def entryForSyms (nfa : NFAb) (T : List Nat) (syms : List Char) : List (Char × List Nat) :=
  syms.filterMap (fun sym =>
    if (moveClosure nfa T sym).isEmpty then none
    else some (sym, freeze (moveClosure nfa T sym)))

/-- The full transition entry of the DFA state `T`. -/
def entryFor (nfa : NFAb) (T : List Nat) : List (Char × List Nat) :=
  entryForSyms nfa T nfa.alphabet

/-- Abstract subset simulation over the module-B data: step the current set
of NFA states by `moveClosure`, rejecting as soon as it empties; used as the
bridge between direct NFA simulation and DFA execution. -/
def simB (nfa : NFAb) : List Nat → List Char → Bool
  | cur, [] => cur.any (fun a => nfa.accept_states.contains a)
  | cur, sym :: s =>
      if (moveClosure nfa cur sym).isEmpty then false
      else simB nfa (moveClosure nfa cur sym) s

/-- The invariant of the subset-construction worklist: the discovered states
are duplicate-free canonical subsets of the universe, the worklist holds
discovered states, every recorded transition entry is the canonical entry of
its state, and every discovered state is pending or fully processed (its
entry recorded and all its successor states discovered). -/
def DInv (nfa : NFAb) (sts unm : List (List Nat)) (tra : DTrans) : Prop :=
  sts.Nodup ∧
  (∀ T ∈ sts, (∀ a ∈ T, a ∈ univB nfa) ∧ T.Sorted (· ≤ ·) ∧ T.Nodup) ∧
  (∀ T ∈ unm, T ∈ sts) ∧
  (∀ p ∈ tra, p.2 = entryFor nfa p.1) ∧
  (∀ p ∈ tra, p.1 ∈ sts) ∧
  (∀ T ∈ sts, T ∈ unm ∨ ((∃ e, (T, e) ∈ tra) ∧
    ∀ sym ∈ nfa.alphabet, ¬(moveClosure nfa T sym).isEmpty = true →
      freeze (moveClosure nfa T sym) ∈ sts))

/-! ### Generic worklist lemmas -/

theorem addNew_res_sub : ∀ (ds res stk : List Nat), res ⊆ (addNew res stk ds).1 := by
  intro ds
  induction ds with
  | nil => intro res stk; simp [addNew]
  | cons d ds ih =>
    intro res stk
    by_cases h : d ∈ res
    · simpa [addNew, h] using ih res stk
    · simp only [addNew, if_neg h]
      exact (List.subset_append_left res [d]).trans (ih (res ++ [d]) (d :: stk))

theorem addNew_ds_sub : ∀ (ds res stk : List Nat), ds ⊆ (addNew res stk ds).1 := by
  intro ds
  induction ds with
  | nil => intro res stk; simp
  | cons d ds ih =>
    intro res stk a ha
    rcases List.mem_cons.mp ha with rfl | ha
    · by_cases h : a ∈ res
      · simp only [addNew, if_pos h]
        exact addNew_res_sub ds res stk h
      · simp only [addNew, if_neg h]
        exact addNew_res_sub ds (res ++ [a]) (a :: stk) (by simp)
    · by_cases h : d ∈ res
      · simp only [addNew, if_pos h]; exact ih res stk ha
      · simp only [addNew, if_neg h]; exact ih (res ++ [d]) (d :: stk) ha

theorem addNew_stk_sub : ∀ (ds res stk : List Nat), stk ⊆ (addNew res stk ds).2 := by
  intro ds
  induction ds with
  | nil => intro res stk; simp [addNew]
  | cons d ds ih =>
    intro res stk
    by_cases h : d ∈ res
    · simpa [addNew, h] using ih res stk
    · simp only [addNew, if_neg h]
      exact (List.subset_cons_self d stk).trans (ih (res ++ [d]) (d :: stk))

theorem addNew_mem_res : ∀ (ds res stk : List Nat) (a : Nat), a ∈ (addNew res stk ds).1 →
    a ∈ res ∨ a ∈ (addNew res stk ds).2 := by
  intro ds
  induction ds with
  | nil => intro res stk a ha; simp [addNew] at ha; exact Or.inl ha
  | cons d ds ih =>
    intro res stk a ha
    by_cases h : d ∈ res
    · simp only [addNew, if_pos h] at ha ⊢; exact ih res stk a ha
    · simp only [addNew, if_neg h] at ha ⊢
      rcases ih (res ++ [d]) (d :: stk) a ha with h1 | h1
      · rcases List.mem_append.mp h1 with h2 | h2
        · exact Or.inl h2
        · right
          have : a ∈ d :: stk := by simp at h2; simp [h2]
          exact addNew_stk_sub ds (res ++ [d]) (d :: stk) this
      · exact Or.inr h1

theorem addNew_mem_res_or_ds : ∀ (ds res stk : List Nat) (a : Nat),
    a ∈ (addNew res stk ds).1 → a ∈ res ∨ a ∈ ds := by
  intro ds
  induction ds with
  | nil => intro res stk a ha; simp [addNew] at ha; exact Or.inl ha
  | cons d ds ih =>
    intro res stk a ha
    by_cases h : d ∈ res
    · simp only [addNew, if_pos h] at ha
      rcases ih res stk a ha with h1 | h1
      · exact Or.inl h1
      · exact Or.inr (by simp [h1])
    · simp only [addNew, if_neg h] at ha
      rcases ih (res ++ [d]) (d :: stk) a ha with h1 | h1
      · rcases List.mem_append.mp h1 with h2 | h2
        · exact Or.inl h2
        · simp at h2; exact Or.inr (by simp [h2])
      · exact Or.inr (by simp [h1])

theorem addNew_mem_stk : ∀ (ds res stk : List Nat) (a : Nat),
    a ∈ (addNew res stk ds).2 → a ∈ stk ∨ a ∈ ds := by
  intro ds
  induction ds with
  | nil => intro res stk a ha; simp [addNew] at ha; exact Or.inl ha
  | cons d ds ih =>
    intro res stk a ha
    by_cases h : d ∈ res
    · simp only [addNew, if_pos h] at ha
      rcases ih res stk a ha with h1 | h1
      · exact Or.inl h1
      · exact Or.inr (by simp [h1])
    · simp only [addNew, if_neg h] at ha
      rcases ih (res ++ [d]) (d :: stk) a ha with h1 | h1
      · rcases List.mem_cons.mp h1 with h2 | h2
        · exact Or.inr (by simp [h2])
        · exact Or.inl h2
      · exact Or.inr (by simp [h1])

theorem addNew_nodup : ∀ (ds res stk : List Nat), res.Nodup → (addNew res stk ds).1.Nodup := by
  intro ds
  induction ds with
  | nil => intro res stk h; simpa [addNew] using h
  | cons d ds ih =>
    intro res stk h
    by_cases hd : d ∈ res
    · simp only [addNew, if_pos hd]; exact ih res stk h
    · simp only [addNew, if_neg hd]
      exact ih (res ++ [d]) (d :: stk) (by simp [List.nodup_append, h, hd])

theorem addNew_of_sub : ∀ (ds res stk : List Nat), ds ⊆ res → addNew res stk ds = (res, stk) := by
  intro ds
  induction ds with
  | nil => intro res stk _; rfl
  | cons d ds ih =>
    intro res stk h
    have hd : d ∈ res := h (by simp)
    simp only [addNew, if_pos hd]
    exact ih res stk (fun a ha => h (by simp [ha]))

theorem addNew_measure (univ : Finset Nat) : ∀ (ds res stk : List Nat), (∀ d ∈ ds, d ∈ univ) →
    2 * (univ \ (addNew res stk ds).1.toFinset).card + (addNew res stk ds).2.length ≤
      2 * (univ \ res.toFinset).card + stk.length := by
  intro ds
  induction ds with
  | nil => intro res stk _; simp [addNew]
  | cons d ds ih =>
    intro res stk hds
    by_cases h : d ∈ res
    · simp only [addNew, if_pos h]
      exact ih res stk (fun x hx => hds x (by simp [hx]))
    · simp only [addNew, if_neg h]
      have step := ih (res ++ [d]) (d :: stk) (fun x hx => hds x (by simp [hx]))
      have hdd : d ∈ univ \ res.toFinset := by
        simp [Finset.mem_sdiff, hds d (by simp), h]
      have hset : univ \ (res ++ [d]).toFinset = (univ \ res.toFinset).erase d := by
        ext x
        simp [Finset.mem_sdiff, Finset.mem_erase, List.mem_toFinset]
        tauto
      have hcard : (univ \ (res ++ [d]).toFinset).card = (univ \ res.toFinset).card - 1 := by
        rw [hset, Finset.card_erase_of_mem hdd]
      have hpos : 1 ≤ (univ \ res.toFinset).card := Finset.card_pos.mpr ⟨d, hdd⟩
      rw [hcard] at step
      simp only [List.length_cons] at step
      omega

theorem closureAux_res_sub (next : Nat → List Nat) :
    ∀ (fuel : Nat) (res stk : List Nat), res ⊆ closureAux next fuel res stk := by
  intro fuel
  induction fuel with
  | zero => intro res stk; simp [closureAux]
  | succ fuel ih =>
    intro res stk
    cases stk with
    | nil => simp [closureAux]
    | cons s stk =>
      simp only [closureAux]
      exact (addNew_res_sub (next s) res stk).trans (ih _ _)

theorem closureAux_le (next : Nat → List Nat) (P : Nat → Prop)
    (hP : ∀ x, P x → ∀ d ∈ next x, P d) :
    ∀ (fuel : Nat) (res stk : List Nat), (∀ a ∈ res, P a) → (∀ a ∈ stk, P a) →
      ∀ a ∈ closureAux next fuel res stk, P a := by
  intro fuel
  induction fuel with
  | zero => intro res stk h1 _ a ha; exact h1 a (by simpa [closureAux] using ha)
  | succ fuel ih =>
    intro res stk h1 h2
    cases stk with
    | nil => intro a ha; exact h1 a (by simpa [closureAux] using ha)
    | cons s stk =>
      simp only [closureAux]
      apply ih
      · intro a ha
        rcases addNew_mem_res_or_ds (next s) res stk a ha with h | h
        · exact h1 a h
        · exact hP s (h2 s (by simp)) a h
      · intro a ha
        rcases addNew_mem_stk (next s) res stk a ha with h | h
        · exact h2 a (by simp [h])
        · exact hP s (h2 s (by simp)) a h

theorem pending_step (next : Nat → List Nat) (s : Nat) (res stk : List Nat)
    (hp : PendingL next res (s :: stk)) :
    PendingL next (addNew res stk (next s)).1 (addNew res stk (next s)).2 := by
  intro x hx
  rcases addNew_mem_res (next s) res stk x hx with hxr | hxs
  · rcases hp x hxr with hmem | hdone
    · rcases List.mem_cons.mp hmem with rfl | h
      · exact Or.inr (fun d hd => addNew_ds_sub (next x) res stk hd)
      · exact Or.inl (addNew_stk_sub (next s) res stk h)
    · exact Or.inr (fun d hd => addNew_res_sub (next s) res stk (hdone d hd))
  · exact Or.inl hxs

theorem closureAux_closed (next : Nat → List Nat) (univ : Finset Nat)
    (hu : ∀ x, ∀ d ∈ next x, d ∈ univ) :
    ∀ (fuel : Nat) (res stk : List Nat), PendingL next res stk →
      2 * (univ \ res.toFinset).card + stk.length ≤ fuel →
      ClosedL next (closureAux next fuel res stk) := by
  intro fuel
  induction fuel with
  | zero =>
    intro res stk hp hm
    have hstk : stk = [] := by
      cases stk with
      | nil => rfl
      | cons a l => simp [List.length_cons] at hm
    subst hstk
    intro x hx d hd
    simp only [closureAux] at hx ⊢
    rcases hp x hx with h | h
    · simp at h
    · exact h d hd
  | succ fuel ih =>
    intro res stk hp hm
    cases stk with
    | nil =>
      intro x hx d hd
      simp only [closureAux] at hx ⊢
      rcases hp x hx with h | h
      · simp at h
      · exact h d hd
    | cons s stk =>
      simp only [closureAux]
      apply ih _ _ (pending_step next s res stk hp)
      have := addNew_measure univ (next s) res stk (hu s)
      simp only [List.length_cons] at hm
      omega

theorem closureAux_stable (next : Nat → List Nat) (univ : Finset Nat)
    (hu : ∀ x, ∀ d ∈ next x, d ∈ univ) :
    ∀ (fuel : Nat) (res stk : List Nat),
      2 * (univ \ res.toFinset).card + stk.length ≤ fuel →
      closureAux next (fuel + 1) res stk = closureAux next fuel res stk := by
  intro fuel
  induction fuel with
  | zero =>
    intro res stk hm
    have hstk : stk = [] := by
      cases stk with
      | nil => rfl
      | cons a l => simp [List.length_cons] at hm
    subst hstk
    simp [closureAux]
  | succ fuel ih =>
    intro res stk hm
    cases stk with
    | nil => simp [closureAux]
    | cons s stk =>
      show closureAux next (fuel + 1 + 1) res (s :: stk) = _
      simp only [closureAux]
      apply ih
      have := addNew_measure univ (next s) res stk (hu s)
      simp only [List.length_cons] at hm
      omega

theorem closureAux_ge (next : Nat → List Nat) (univ : Finset Nat)
    (hu : ∀ x, ∀ d ∈ next x, d ∈ univ) (fuel : Nat) (res stk : List Nat)
    (hm : 2 * (univ \ res.toFinset).card + stk.length ≤ fuel) :
    ∀ m, fuel ≤ m → closureAux next m res stk = closureAux next fuel res stk := by
  intro m hm2
  induction m, hm2 using Nat.le_induction with
  | base => rfl
  | succ m hle ih =>
    rw [closureAux_stable next univ hu m res stk (hm.trans hle), ih]

theorem closureAux_nodup (next : Nat → List Nat) :
    ∀ (fuel : Nat) (res stk : List Nat), res.Nodup → (closureAux next fuel res stk).Nodup := by
  intro fuel
  induction fuel with
  | zero => intro res stk h; simpa [closureAux] using h
  | succ fuel ih =>
    intro res stk h
    cases stk with
    | nil => simpa [closureAux] using h
    | cons s stk =>
      simp only [closureAux]
      exact ih _ _ (addNew_nodup (next s) res stk h)

theorem closureAux_of_closed (next : Nat → List Nat) :
    ∀ (fuel : Nat) (res stk : List Nat), ClosedL next res → (∀ a ∈ stk, a ∈ res) →
      closureAux next fuel res stk = res := by
  intro fuel
  induction fuel with
  | zero => intro res stk _ _; simp [closureAux]
  | succ fuel ih =>
    intro res stk hc hs
    cases stk with
    | nil => simp [closureAux]
    | cons s stk =>
      simp only [closureAux]
      rw [addNew_of_sub (next s) res stk (fun d hd => hc s (hs s (by simp)) d hd)]
      exact ih res stk hc (fun a ha => hs a (by simp [ha]))

/-! ### Association-list lookup helpers -/

theorem mem_of_lookup_eq_some {α β : Type} [BEq α] [LawfulBEq α] :
    ∀ (l : List (α × β)) (a : α) (b : β), l.lookup a = some b → (a, b) ∈ l := by
  intro l
  induction l with
  | nil => intro a b h; simp [List.lookup] at h
  | cons p l ih =>
    intro a b h
    obtain ⟨k, v⟩ := p
    rw [List.lookup_cons] at h
    cases hk : a == k with
    | true =>
      rw [hk] at h
      simp only [Option.some.injEq] at h
      have hak : a = k := beq_iff_eq.mp hk
      subst hak
      simp [h]
    | false =>
      rw [hk] at h
      simp only at h
      exact List.mem_cons_of_mem _ (ih a b h)

theorem lookup_map_self {α β : Type} [BEq α] [LawfulBEq α] (f : α → β) :
    ∀ (l : List α) (a : α), (l.map (fun s => (s, f s))).lookup a =
      if a ∈ l then some (f a) else none := by
  intro l
  induction l with
  | nil => intro a; simp [List.lookup]
  | cons x l ih =>
    intro a
    simp only [List.map_cons, List.lookup_cons]
    by_cases hx : a = x
    · subst hx
      simp
    · have hbe : (a == x) = false := by simp [hx]
      rw [hbe]
      simp only
      have hiff : (a ∈ x :: l) ↔ (a ∈ l) := by simp [hx]
      rw [if_congr hiff rfl rfl]
      exact ih a

theorem lookup_of_uniform {α β : Type} [BEq α] [LawfulBEq α] (g : α → β) :
    ∀ (l : List (α × β)), (∀ p ∈ l, p.2 = g p.1) → ∀ (a : α) (b : β), (a, b) ∈ l →
      l.lookup a = some (g a) := by
  intro l
  induction l with
  | nil => intro _ a b h; simp at h
  | cons p l ih =>
    intro hu a b h
    obtain ⟨k, v⟩ := p
    rw [List.lookup_cons]
    cases hk : a == k with
    | true =>
      have hak : a = k := beq_iff_eq.mp hk
      subst hak
      have : v = g a := hu (a, v) (by simp)
      simp [this]
    | false =>
      simp only
      have hne : a ≠ k := by
        intro hx; subst hx; simp at hk
      rcases List.mem_cons.mp h with heq | hmem
      · exact absurd (congrArg Prod.fst heq) hne
      · exact ih (fun q hq => hu q (List.mem_cons_of_mem _ hq)) a b hmem

/-! ### The closure computation of `regex_to_NFA.py` -/

theorem targetsA_sub_allTargets (tr : Edges) (s : Nat) (sym : Option Char) :
    targetsA tr s sym ⊆ allTargetsA tr := by
  intro d hd
  simp only [targetsA, List.mem_filterMap] at hd
  obtain ⟨e, he, hfd⟩ := hd
  split at hfd
  · simp only [Option.some.injEq] at hfd
    subst hfd
    simp only [allTargetsA, List.mem_dedup, List.mem_map]
    exact ⟨e, he, rfl⟩
  · simp at hfd

theorem epsTargetsA_univ (tr : Edges) :
    ∀ x, ∀ d ∈ epsTargetsA tr x, d ∈ (allTargetsA tr).toFinset := by
  intro x d hd
  exact List.mem_toFinset.mpr (targetsA_sub_allTargets tr x none hd)

theorem closureFuelA_ok (tr : Edges) (states : List Nat) :
    2 * ((allTargetsA tr).toFinset \ states.dedup.toFinset).card + states.length ≤
      closureFuelA tr states := by
  have h1 : ((allTargetsA tr).toFinset \ states.dedup.toFinset).card ≤
      (allTargetsA tr).toFinset.card := Finset.card_le_card Finset.sdiff_subset
  have h2 : (allTargetsA tr).toFinset.card ≤ (allTargetsA tr).length :=
    List.toFinset_card_le _
  simp only [closureFuelA]
  omega

theorem eps_closure_sub (states : List Nat) (tr : Edges) :
    states ⊆ eps_closure states tr := by
  intro a ha
  exact closureAux_res_sub _ _ _ _ (List.mem_dedup.mpr ha)

theorem eps_closure_closed (states : List Nat) (tr : Edges) :
    ClosedL (epsTargetsA tr) (eps_closure states tr) :=
  closureAux_closed (epsTargetsA tr) (allTargetsA tr).toFinset (epsTargetsA_univ tr)
    (closureFuelA tr states) states.dedup states
    (fun x hx => Or.inl (List.mem_dedup.mp hx))
    (closureFuelA_ok tr states)

theorem eps_closure_le (states : List Nat) (tr : Edges) (P : Nat → Prop)
    (hP : ∀ x, P x → ∀ d ∈ epsTargetsA tr x, P d) (h : ∀ a ∈ states, P a) :
    ∀ a ∈ eps_closure states tr, P a :=
  closureAux_le _ P hP _ _ _ (fun a ha => h a (List.mem_dedup.mp ha)) h

theorem eps_closure_nodup (states : List Nat) (tr : Edges) :
    (eps_closure states tr).Nodup :=
  closureAux_nodup _ _ _ _ (List.nodup_dedup states)

theorem eps_closure_of_closed (L : List Nat) (tr : Edges)
    (hc : ClosedL (epsTargetsA tr) L) (hnd : L.Nodup) : eps_closure L tr = L := by
  show closureAux _ _ L.dedup L = L
  rw [List.Nodup.dedup hnd]
  exact closureAux_of_closed _ _ _ _ hc (fun a ha => ha)

/-! ### The closure computation of `nfa_to_dfa.py` -/

theorem targetsB_sub_allTargetsB (tr : TransB) (s : Nat) (sym : Option Char) :
    targetsB tr s sym ⊆ allTargetsB tr := by
  intro d hd
  unfold targetsB rowB at hd
  cases h1 : tr.lookup s with
  | none => rw [h1] at hd; simp at hd
  | some row =>
    rw [h1] at hd
    simp only [Option.getD_some] at hd
    cases h2 : row.lookup sym with
    | none => rw [h2] at hd; simp at hd
    | some ds =>
      rw [h2] at hd
      simp only [Option.getD_some] at hd
      have hrow : (s, row) ∈ tr := mem_of_lookup_eq_some tr s row h1
      have hds : (sym, ds) ∈ row := mem_of_lookup_eq_some row sym ds h2
      simp only [allTargetsB, List.mem_dedup, List.mem_flatMap]
      exact ⟨(s, row), hrow, (sym, ds), hds, hd⟩

theorem epsTargetsB_univ (tr : TransB) :
    ∀ x, ∀ d ∈ epsTargetsB tr x, d ∈ (allTargetsB tr).toFinset := by
  intro x d hd
  exact List.mem_toFinset.mpr (targetsB_sub_allTargetsB tr x none hd)

theorem closureFuelB_ok (tr : TransB) (states : List Nat) :
    2 * ((allTargetsB tr).toFinset \ states.dedup.toFinset).card + states.length ≤
      closureFuelB tr states := by
  have h1 : ((allTargetsB tr).toFinset \ states.dedup.toFinset).card ≤
      (allTargetsB tr).toFinset.card := Finset.card_le_card Finset.sdiff_subset
  have h2 : (allTargetsB tr).toFinset.card ≤ (allTargetsB tr).length :=
    List.toFinset_card_le _
  simp only [closureFuelB]
  omega

theorem epsilon_closure_sub (nfa : NFAb) (states : List Nat) :
    states ⊆ nfa.epsilon_closure states := by
  intro a ha
  exact closureAux_res_sub _ _ _ _ (List.mem_dedup.mpr ha)

theorem epsilon_closure_closed (nfa : NFAb) (states : List Nat) :
    ClosedL (epsTargetsB nfa.transitions) (nfa.epsilon_closure states) :=
  closureAux_closed (epsTargetsB nfa.transitions) (allTargetsB nfa.transitions).toFinset
    (epsTargetsB_univ nfa.transitions)
    (closureFuelB nfa.transitions states) states.dedup states
    (fun x hx => Or.inl (List.mem_dedup.mp hx))
    (closureFuelB_ok nfa.transitions states)

theorem epsilon_closure_le (nfa : NFAb) (states : List Nat) (P : Nat → Prop)
    (hP : ∀ x, P x → ∀ d ∈ epsTargetsB nfa.transitions x, P d) (h : ∀ a ∈ states, P a) :
    ∀ a ∈ nfa.epsilon_closure states, P a :=
  closureAux_le _ P hP _ _ _ (fun a ha => h a (List.mem_dedup.mp ha)) h

theorem epsilon_closure_nodup (nfa : NFAb) (states : List Nat) :
    (nfa.epsilon_closure states).Nodup :=
  closureAux_nodup _ _ _ _ (List.nodup_dedup states)

theorem epsilon_closure_of_closed (nfa : NFAb) (L : List Nat)
    (hc : ClosedL (epsTargetsB nfa.transitions) L) (hnd : L.Nodup) :
    nfa.epsilon_closure L = L := by
  show closureAux _ _ L.dedup L = L
  rw [List.Nodup.dedup hnd]
  exact closureAux_of_closed _ _ _ _ hc (fun a ha => ha)

theorem eps_closure_nil (tr : Edges) : eps_closure [] tr = [] :=
  eps_closure_of_closed [] tr (fun x hx => absurd hx (List.not_mem_nil x)) List.nodup_nil

/-! ### Matcher rejection lemmas -/

theorem acceptsFrom_out_of_alphabet (d : DFAb) (sym : Char) (hsym : sym ∉ d.alphabet) :
    ∀ (s : List Char) (cur : List Nat), sym ∈ s → acceptsFrom d cur s = false := by
  intro s
  induction s with
  | nil => intro cur h; simp at h
  | cons c s ih =>
    intro cur hmem
    by_cases hc : c ∈ d.alphabet
    · have hcs : sym ∈ s := by
        rcases List.mem_cons.mp hmem with rfl | h
        · exact absurd hc hsym
        · exact h
      simp only [acceptsFrom, if_pos hc]
      cases h2 : ((d.transitions.lookup cur).getD []).lookup c with
      | none => rfl
      | some nxt => exact ih nxt hcs
    · simp [acceptsFrom, hc]

theorem targetsA_of_no_edge (tr : Edges) (sym : Char)
    (hno : ∀ e ∈ tr, e.2.1 ≠ some sym) (st : Nat) : targetsA tr st (some sym) = [] := by
  rw [targetsA, List.filterMap_eq_nil_iff]
  intro e he
  have := hno e he
  simp only [ite_eq_right_iff]
  intro hcond
  exact absurd hcond.2 this

theorem moveA_of_no_edge (tr : Edges) (sym : Char)
    (hno : ∀ e ∈ tr, e.2.1 ≠ some sym) (cur : List Nat) : moveA cur sym tr = [] := by
  rw [moveA]
  have : cur.flatMap (fun s => targetsA tr s (some sym)) = [] := by
    rw [List.flatMap_eq_nil_iff]
    intro s _
    exact targetsA_of_no_edge tr sym hno s
  rw [this]
  rfl

theorem matchesLoop_no_edge (tr : Edges) (acc : List Nat) (sym : Char)
    (hno : ∀ e ∈ tr, e.2.1 ≠ some sym) :
    ∀ (s : List Char) (cur : List Nat), sym ∈ s → matchesLoop tr acc cur s = false := by
  intro s
  induction s with
  | nil => intro cur h; simp at h
  | cons c s ih =>
    intro cur hmem
    by_cases hempty : (eps_closure (moveA cur c tr) tr).isEmpty
    · simp [matchesLoop, hempty]
    · rcases List.mem_cons.mp hmem with rfl | hs
      · exfalso
        apply hempty
        rw [moveA_of_no_edge tr sym hno cur, eps_closure_nil]
        rfl
      · simp only [matchesLoop, if_neg hempty]
        exact ih _ hs

/-! ### Claim theorems (part 1) -/

/-- C1 (code bug): the `'+'` branch of `build` also appends the
zero-iteration epsilon edge `s → f` (the `if t != '?'` append on lines
70-71 of `regex_to_NFA.py` runs for `'+'` exactly as for `'*'`), so the
full pipeline accepts `"ac"` for the pattern `"ab+c"` even though the claim
— and the module's own `__main__` expectation list, which puts `"ac"` in
the `no` cases of `"ab+c"` — demands rejection.  The other two evaluations
of the claim hold as stated. -/
theorem c1_star_plus_evaluation :
    pipelineMatches "ab*c" "ac" = some true ∧
    pipelineMatches "ab+c" "ac" = some true ∧
    pipelineMatches "ab+c" "abbc" = some true :=
  ⟨by decide, by decide, by decide⟩

/-- C2 (code bug): the normalizer silently ignores unmatched parentheses
instead of raising `MalformedPatternError` (no such error exists anywhere
in the code): on `"(a"` the unconsumed `'('` is flushed into the postfix
output by the final `out.extend(reversed(st))`, and on `")a"` the
unmatched `')'` is dropped by `st.pop() if st else None`; both
normalizations return an ordinary string. -/
theorem c2_normalizer_silent :
    toPost (add_concat "(a".toList) = "a(".toList ∧
    toPost (add_concat ")a".toList) = "a.".toList :=
  ⟨by decide, by decide⟩

/-- C5: for every seed set of NFA states `S` and every transition map, `S`
is contained in its epsilon closure — both the `eps_closure` worklist of
`regex_to_NFA.py` and the `NFA.epsilon_closure` worklist of
`nfa_to_dfa.py` never drop a seed state. -/
theorem c5_closure_monotone (S : List Nat) (tr : Edges) (nfa : NFAb) :
    S ⊆ eps_closure S tr ∧ S ⊆ nfa.epsilon_closure S :=
  ⟨eps_closure_sub S tr, epsilon_closure_sub nfa S⟩

/-- C6: applying the epsilon closure twice gives the same result as
applying it once, in both modules (the second run starts from a closed,
duplicate-free set, so its worklist adds nothing). -/
theorem c6_closure_idem (S : List Nat) (tr : Edges) (nfa : NFAb) :
    eps_closure (eps_closure S tr) tr = eps_closure S tr ∧
    nfa.epsilon_closure (nfa.epsilon_closure S) = nfa.epsilon_closure S :=
  ⟨eps_closure_of_closed _ tr (eps_closure_closed S tr) (eps_closure_nodup S tr),
   epsilon_closure_of_closed nfa _ (epsilon_closure_closed nfa S) (epsilon_closure_nodup nfa S)⟩

/-- C7: the epsilon-closure worklists terminate on every finite input,
including transition maps whose epsilon edges form cycles: the chosen fuel
(`closureFuelA` resp. `closureFuelB`, enough for every universe state to be
enqueued once) already drains the worklist, so any larger fuel computes the
very same result. -/
theorem c7_closure_terminates (tr : Edges) (nfa : NFAb) (S : List Nat) (m : Nat)
    (hA : closureFuelA tr S ≤ m) (hB : closureFuelB nfa.transitions S ≤ m) :
    closureAux (epsTargetsA tr) m S.dedup S = eps_closure S tr ∧
    closureAux (epsTargetsB nfa.transitions) m S.dedup S = nfa.epsilon_closure S :=
  ⟨closureAux_ge _ _ (epsTargetsA_univ tr) _ _ _ (closureFuelA_ok tr S) m hA,
   closureAux_ge _ _ (epsTargetsB_univ nfa.transitions) _ _ _
     (closureFuelB_ok nfa.transitions S) m hB⟩

/-- Witness for C7 at a cyclic epsilon graph (`0 → 1 → 0` in both modules)
and fuel 50, far beyond the computed bound. -/
theorem c7_closure_terminates_witness :
    closureFuelA [(0, none, 1), (1, none, 0)] [0] ≤ 50 ∧
    closureFuelB [(0, [(none, [1])]), (1, [(none, [0])])] [0] ≤ 50 ∧
    (closureAux (epsTargetsA [(0, none, 1), (1, none, 0)]) 50 [0].dedup [0] =
        eps_closure [0] [(0, none, 1), (1, none, 0)] ∧
      closureAux
          (epsTargetsB (NFAb.mk [0, 1] [] [(0, [(none, [1])]), (1, [(none, [0])])] 0 []).transitions)
          50 [0].dedup [0] =
        (NFAb.mk [0, 1] [] [(0, [(none, [1])]), (1, [(none, [0])])] 0 []).epsilon_closure [0]) :=
  ⟨by decide, by decide,
    c7_closure_terminates [(0, none, 1), (1, none, 0)]
      (NFAb.mk [0, 1] [] [(0, [(none, [1])]), (1, [(none, [0])])] 0 []) [0] 50
      (by decide) (by decide)⟩

/-- C9: neither matcher can raise (both are total functions here, mirroring
code whose every path returns a boolean), and a symbol outside the
automaton's alphabet — or, for the DFA, a symbol with no transition from
the current state — makes the matcher return `False`: `DFA.accepts` checks
`symbol not in self.alphabet` and its transition lookup returns `None`,
and NFA simulation reaches an empty state set. -/
theorem c9_matcher_rejects_unknown (d : DFAb) (nfa : Frag) (s rest : List Char)
    (sym : Char) (hs : sym ∈ s) :
    (sym ∉ d.alphabet → d.accepts s = false) ∧
    ((∀ e ∈ nfa.2.2, e.2.1 ≠ some sym) → matchesNFA nfa s = false) ∧
    (∀ cur, sym ∈ d.alphabet → ((d.transitions.lookup cur).getD []).lookup sym = none →
      acceptsFrom d cur (sym :: rest) = false) := by
  refine ⟨?_, ?_, ?_⟩
  · intro hsym
    exact acceptsFrom_out_of_alphabet d sym hsym s d.start_state hs
  · intro hno
    exact matchesLoop_no_edge nfa.2.2 nfa.2.1 sym hno s _ hs
  · intro cur hal hnone
    simp only [acceptsFrom, if_pos hal]
    rw [hnone]

/-- Witness for C9: a concrete DFA over alphabet `{'a'}` and the compiled
fragment of pattern `"a"`, with the out-of-alphabet input symbol `'z'`. -/
theorem c9_matcher_rejects_unknown_witness :
    'z' ∈ ['z'] ∧
    (('z' ∉ (DFAb.mk [[0]] ['a'] [] [0] []).alphabet →
        (DFAb.mk [[0]] ['a'] [] [0] []).accepts ['z'] = false) ∧
      ((∀ e ∈ ((0, [1], [(0, some 'a', 1)]) : Frag).2.2, e.2.1 ≠ some 'z') →
        matchesNFA (0, [1], [(0, some 'a', 1)]) ['z'] = false) ∧
      (∀ cur, 'z' ∈ (DFAb.mk [[0]] ['a'] [] [0] []).alphabet →
        (((DFAb.mk [[0]] ['a'] [] [0] []).transitions.lookup cur).getD []).lookup 'z' = none →
        acceptsFrom (DFAb.mk [[0]] ['a'] [] [0] []) cur ('z' :: []) = false)) :=
  ⟨by decide,
    c9_matcher_rejects_unknown (DFAb.mk [[0]] ['a'] [] [0] [])
      (0, [1], [(0, some 'a', 1)]) ['z'] [] 'z' (by decide)⟩

/-- C10: on a pattern without the concatenation marker `'.'`, `add_concat`
only inserts markers and never removes or reorders input characters:
deleting every `'.'` from its output restores the input. -/
theorem addConcatAux_filter : ∀ (r : List Char) (prev : Option Char), '.' ∉ r →
    (addConcatAux prev r).filter (fun c => c != '.') = r := by
  intro r
  induction r with
  | nil => intro prev _; cases prev <;> rfl
  | cons c r ih =>
    intro prev hdot
    have hc : (c != '.') = true := by
      simp only [bne_iff_ne, ne_eq]
      intro h
      exact hdot (by simp [h])
    have hr : '.' ∉ r := fun h => hdot (List.mem_cons_of_mem _ h)
    cases prev with
    | none => simp [addConcatAux, List.filter_cons, hc, ih (some c) hr]
    | some p =>
      by_cases hins : ((p != '|' && p != '(') &&
          (c != '|' && c != ')' && c != '*' && c != '+' && c != '?')) = true
      · simp [addConcatAux, hins, List.filter_cons, hc, ih (some c) hr]
      · simp [addConcatAux, hins, List.filter_cons, hc, ih (some c) hr]

/-- C10, stated on `add_concat` itself. -/
theorem c10_add_concat_preserves (r : List Char) (h : '.' ∉ r) :
    (add_concat r).filter (fun c => c != '.') = r :=
  addConcatAux_filter r none h

/-- Witness for C10 at the pattern `"a(b|c)*d"`. -/
theorem c10_add_concat_preserves_witness :
    '.' ∉ "a(b|c)*d".toList ∧
    (add_concat "a(b|c)*d".toList).filter (fun c => c != '.') = "a(b|c)*d".toList :=
  ⟨by decide, c10_add_concat_preserves "a(b|c)*d".toList (by decide)⟩

/-! ### Canonical frozen state sets -/

theorem freeze_mem (l : List Nat) (a : Nat) : a ∈ freeze l ↔ a ∈ l := by
  unfold freeze
  rw [(List.perm_insertionSort _ _).mem_iff, List.mem_dedup]

theorem freeze_nodup (l : List Nat) : (freeze l).Nodup :=
  ((List.perm_insertionSort _ _).nodup_iff).mpr (List.nodup_dedup l)

theorem freeze_sorted (l : List Nat) : (freeze l).Sorted (· ≤ ·) :=
  List.sorted_insertionSort _ _

theorem eq_of_canonical (T1 T2 : List Nat) (h1 : T1.Sorted (· ≤ ·)) (h2 : T2.Sorted (· ≤ ·))
    (hn1 : T1.Nodup) (hn2 : T2.Nodup) (hm : ∀ a, a ∈ T1 ↔ a ∈ T2) : T1 = T2 := by
  have hperm : T1.Perm T2 :=
    (List.subperm_of_subset hn1 (fun a ha => (hm a).mp ha)).antisymm
      (List.subperm_of_subset hn2 (fun a ha => (hm a).mpr ha))
  exact List.eq_of_perm_of_sorted hperm h1 h2

theorem freeze_eq_of_mem_iff (l1 l2 : List Nat) (hm : ∀ a, a ∈ l1 ↔ a ∈ l2) :
    freeze l1 = freeze l2 :=
  eq_of_canonical _ _ (freeze_sorted l1) (freeze_sorted l2) (freeze_nodup l1) (freeze_nodup l2)
    (fun a => by rw [freeze_mem, freeze_mem]; exact hm a)

/-! ### The state universe of the subset construction -/

theorem allTargetsB_sub_univB (nfa : NFAb) :
    ∀ a ∈ allTargetsB nfa.transitions, a ∈ univB nfa := by
  intro a ha
  simp only [univB, List.mem_dedup, List.mem_cons]
  exact Or.inr ha

theorem epsilon_closure_sub_univB (nfa : NFAb) (seed : List Nat)
    (hseed : ∀ a ∈ seed, a ∈ univB nfa) :
    ∀ a ∈ nfa.epsilon_closure seed, a ∈ univB nfa :=
  epsilon_closure_le nfa seed (fun x => x ∈ univB nfa)
    (fun _ _ d hd => allTargetsB_sub_univB nfa d (targetsB_sub_allTargetsB _ _ none hd))
    hseed

theorem moveClosure_sub_univB (nfa : NFAb) (T : List Nat) (sym : Char) :
    ∀ a ∈ moveClosure nfa T sym, a ∈ univB nfa := by
  intro a ha
  simp only [moveClosure, List.mem_dedup, List.mem_flatMap] at ha
  obtain ⟨st, _, t, ht, hcl⟩ := ha
  have ht2 : t ∈ univB nfa :=
    allTargetsB_sub_univB nfa t (targetsB_sub_allTargetsB _ _ (some sym) ht)
  exact epsilon_closure_sub_univB nfa [t]
    (fun x hx => by rw [List.mem_singleton.mp hx]; exact ht2) a hcl

theorem start_closure_sub_univB (nfa : NFAb) :
    ∀ a ∈ nfa.epsilon_closure [nfa.start_state], a ∈ univB nfa :=
  epsilon_closure_sub_univB nfa [nfa.start_state]
    (fun x hx => by
      rw [List.mem_singleton.mp hx]
      simp [univB, List.mem_dedup])

theorem canonical_length_bound (nfa : NFAb) (sts : List (List Nat)) (h1 : sts.Nodup)
    (h2 : ∀ T ∈ sts, (∀ a ∈ T, a ∈ univB nfa) ∧ T.Sorted (· ≤ ·) ∧ T.Nodup) :
    sts.length ≤ 2 ^ (univB nfa).length := by
  have hinj : ∀ x ∈ sts, ∀ y ∈ sts, x.toFinset = y.toFinset → x = y := by
    intro x hx y hy hxy
    obtain ⟨_, hsx, hnx⟩ := h2 x hx
    obtain ⟨_, hsy, hny⟩ := h2 y hy
    refine eq_of_canonical x y hsx hsy hnx hny (fun a => ?_)
    constructor
    · intro h; exact List.mem_toFinset.mp (hxy ▸ List.mem_toFinset.mpr h)
    · intro h; exact List.mem_toFinset.mp (hxy ▸ List.mem_toFinset.mpr h)
  have hnodup : (sts.map List.toFinset).Nodup := List.Nodup.map_on hinj h1
  have hmem : ∀ F ∈ (sts.map List.toFinset).toFinset, F ∈ (univB nfa).toFinset.powerset := by
    intro F hF
    rw [List.mem_toFinset, List.mem_map] at hF
    obtain ⟨T, hT, rfl⟩ := hF
    rw [Finset.mem_powerset]
    intro a ha
    exact List.mem_toFinset.mpr ((h2 T hT).1 a (List.mem_toFinset.mp ha))
  calc sts.length = (sts.map List.toFinset).length := by simp
    _ = (sts.map List.toFinset).toFinset.card := (List.toFinset_card_of_nodup hnodup).symm
    _ ≤ (univB nfa).toFinset.powerset.card := Finset.card_le_card hmem
    _ = 2 ^ (univB nfa).toFinset.card := Finset.card_powerset _
    _ ≤ 2 ^ (univB nfa).length := Nat.pow_le_pow_right (by norm_num) (List.toFinset_card_le _)

/-! ### The symbol loop of the subset construction -/

theorem processSymbols_entry (nfa : NFAb) (T : List Nat) :
    ∀ (syms : List Char) (sts unm : List (List Nat)) (entry : List (Char × List Nat)),
      (processSymbols nfa T syms sts unm entry).2.2 = entry ++ entryForSyms nfa T syms := by
  intro syms
  induction syms with
  | nil => intro sts unm entry; simp [processSymbols, entryForSyms]
  | cons sym syms ih =>
    intro sts unm entry
    by_cases he : (moveClosure nfa T sym).isEmpty
    · have he2 : moveClosure nfa T sym = [] := List.isEmpty_iff.mp he
      simp [processSymbols, he, he2, entryForSyms, List.filterMap_cons, ih]
    · have he2 : ¬moveClosure nfa T sym = [] := fun h => he (by simp [h])
      by_cases hin : freeze (moveClosure nfa T sym) ∈ sts
      · simp [processSymbols, he, he2, hin, entryForSyms, List.filterMap_cons, ih]
      · simp [processSymbols, he, he2, hin, entryForSyms, List.filterMap_cons, ih]

theorem processSymbols_sts_sub (nfa : NFAb) (T : List Nat) :
    ∀ (syms : List Char) (sts unm : List (List Nat)) (entry : List (Char × List Nat)),
      sts ⊆ (processSymbols nfa T syms sts unm entry).1 := by
  intro syms
  induction syms with
  | nil => intro sts unm entry; simp [processSymbols]
  | cons sym syms ih =>
    intro sts unm entry
    by_cases he : (moveClosure nfa T sym).isEmpty
    · simpa [processSymbols, he] using ih sts unm entry
    · by_cases hin : freeze (moveClosure nfa T sym) ∈ sts
      · simpa [processSymbols, he, hin] using ih sts unm _
      · simp only [processSymbols, if_neg he, if_neg hin]
        exact (List.subset_append_left sts _).trans (ih _ _ _)

theorem processSymbols_unm_sub (nfa : NFAb) (T : List Nat) :
    ∀ (syms : List Char) (sts unm : List (List Nat)) (entry : List (Char × List Nat)),
      unm ⊆ (processSymbols nfa T syms sts unm entry).2.1 := by
  intro syms
  induction syms with
  | nil => intro sts unm entry; simp [processSymbols]
  | cons sym syms ih =>
    intro sts unm entry
    by_cases he : (moveClosure nfa T sym).isEmpty
    · simpa [processSymbols, he] using ih sts unm entry
    · by_cases hin : freeze (moveClosure nfa T sym) ∈ sts
      · simpa [processSymbols, he, hin] using ih sts unm _
      · simp only [processSymbols, if_neg he, if_neg hin]
        exact (List.subset_cons_self _ unm).trans (ih _ _ _)

theorem processSymbols_sts_mem (nfa : NFAb) (T : List Nat) :
    ∀ (syms : List Char) (sts unm : List (List Nat)) (entry : List (Char × List Nat)),
      ∀ X ∈ (processSymbols nfa T syms sts unm entry).1,
        X ∈ sts ∨ (X ∈ (processSymbols nfa T syms sts unm entry).2.1 ∧
          ∃ sym ∈ syms, ¬(moveClosure nfa T sym).isEmpty = true ∧
            X = freeze (moveClosure nfa T sym)) := by
  intro syms
  induction syms with
  | nil => intro sts unm entry X hX; exact Or.inl (by simpa [processSymbols] using hX)
  | cons sym syms ih =>
    intro sts unm entry X hX
    by_cases he : (moveClosure nfa T sym).isEmpty
    · simp only [processSymbols, if_pos he] at hX ⊢
      rcases ih sts unm entry X hX with h | ⟨h1, sy, h2, h3⟩
      · exact Or.inl h
      · exact Or.inr ⟨h1, sy, by simp [h2], h3⟩
    · by_cases hin : freeze (moveClosure nfa T sym) ∈ sts
      · simp only [processSymbols, if_neg he, if_pos hin] at hX ⊢
        rcases ih sts unm _ X hX with h | ⟨h1, sy, h2, h3⟩
        · exact Or.inl h
        · exact Or.inr ⟨h1, sy, by simp [h2], h3⟩
      · simp only [processSymbols, if_neg he, if_neg hin] at hX ⊢
        rcases ih _ _ _ X hX with h | ⟨h1, sy, h2, h3⟩
        · rcases List.mem_append.mp h with h2 | h2
          · exact Or.inl h2
          · refine Or.inr ⟨?_, sym, by simp, he, by simpa using h2⟩
            have : X ∈ freeze (moveClosure nfa T sym) :: unm := by simpa using Or.inl (by simpa using h2)
            exact processSymbols_unm_sub nfa T syms _ _ _ this
        · exact Or.inr ⟨h1, sy, by simp [h2], h3⟩

theorem processSymbols_covers (nfa : NFAb) (T : List Nat) :
    ∀ (syms : List Char) (sts unm : List (List Nat)) (entry : List (Char × List Nat)),
      ∀ sym ∈ syms, ¬(moveClosure nfa T sym).isEmpty = true →
        freeze (moveClosure nfa T sym) ∈ (processSymbols nfa T syms sts unm entry).1 := by
  intro syms
  induction syms with
  | nil => intro sts unm entry sym h; simp at h
  | cons sym0 syms ih =>
    intro sts unm entry sym hmem hne
    rcases List.mem_cons.mp hmem with rfl | hs
    · by_cases hin : freeze (moveClosure nfa T sym) ∈ sts
      · simp only [processSymbols, if_neg hne, if_pos hin]
        exact processSymbols_sts_sub nfa T syms sts unm _ hin
      · simp only [processSymbols, if_neg hne, if_neg hin]
        exact processSymbols_sts_sub nfa T syms _ _ _ (by simp)
    · by_cases he : (moveClosure nfa T sym0).isEmpty
      · simp only [processSymbols, if_pos he]
        exact ih sts unm entry sym hs hne
      · by_cases hin : freeze (moveClosure nfa T sym0) ∈ sts
        · simp only [processSymbols, if_neg he, if_pos hin]
          exact ih sts unm _ sym hs hne
        · simp only [processSymbols, if_neg he, if_neg hin]
          exact ih _ _ _ sym hs hne

theorem processSymbols_unm_mem (nfa : NFAb) (T : List Nat) :
    ∀ (syms : List Char) (sts unm : List (List Nat)) (entry : List (Char × List Nat)),
      ∀ X ∈ (processSymbols nfa T syms sts unm entry).2.1,
        X ∈ unm ∨ X ∈ (processSymbols nfa T syms sts unm entry).1 := by
  intro syms
  induction syms with
  | nil => intro sts unm entry X hX; exact Or.inl (by simpa [processSymbols] using hX)
  | cons sym syms ih =>
    intro sts unm entry X hX
    by_cases he : (moveClosure nfa T sym).isEmpty
    · simp only [processSymbols, if_pos he] at hX ⊢
      exact ih sts unm entry X hX
    · by_cases hin : freeze (moveClosure nfa T sym) ∈ sts
      · simp only [processSymbols, if_neg he, if_pos hin] at hX ⊢
        exact ih sts unm _ X hX
      · simp only [processSymbols, if_neg he, if_neg hin] at hX ⊢
        rcases ih _ _ _ X hX with h | h
        · rcases List.mem_cons.mp h with rfl | h2
          · exact Or.inr (processSymbols_sts_sub nfa T syms _ _ _ (by simp))
          · exact Or.inl h2
        · exact Or.inr h

theorem processSymbols_count (nfa : NFAb) (T : List Nat) :
    ∀ (syms : List Char) (sts unm : List (List Nat)) (entry : List (Char × List Nat)),
      (processSymbols nfa T syms sts unm entry).1.length + unm.length =
        sts.length + (processSymbols nfa T syms sts unm entry).2.1.length := by
  intro syms
  induction syms with
  | nil => intro sts unm entry; simp [processSymbols]
  | cons sym syms ih =>
    intro sts unm entry
    by_cases he : (moveClosure nfa T sym).isEmpty
    · simp only [processSymbols, if_pos he]; exact ih sts unm entry
    · by_cases hin : freeze (moveClosure nfa T sym) ∈ sts
      · simp only [processSymbols, if_neg he, if_pos hin]; exact ih sts unm _
      · simp only [processSymbols, if_neg he, if_neg hin]
        have := ih (sts ++ [freeze (moveClosure nfa T sym)])
          (freeze (moveClosure nfa T sym) :: unm) (entry ++ [(sym, freeze (moveClosure nfa T sym))])
        simp only [List.length_append, List.length_cons, List.length_nil] at this
        omega

theorem processSymbols_nodup (nfa : NFAb) (T : List Nat) :
    ∀ (syms : List Char) (sts unm : List (List Nat)) (entry : List (Char × List Nat)),
      sts.Nodup → (processSymbols nfa T syms sts unm entry).1.Nodup := by
  intro syms
  induction syms with
  | nil => intro sts unm entry h; simpa [processSymbols] using h
  | cons sym syms ih =>
    intro sts unm entry h
    by_cases he : (moveClosure nfa T sym).isEmpty
    · simp only [processSymbols, if_pos he]; exact ih sts unm entry h
    · by_cases hin : freeze (moveClosure nfa T sym) ∈ sts
      · simp only [processSymbols, if_neg he, if_pos hin]; exact ih sts unm _ h
      · simp only [processSymbols, if_neg he, if_neg hin]
        exact ih _ _ _ (by simp [List.nodup_append, h, hin])

theorem entryForSyms_cons_empty (nfa : NFAb) (T : List Nat) (s0 : Char) (syms : List Char)
    (he : (moveClosure nfa T s0).isEmpty = true) :
    entryForSyms nfa T (s0 :: syms) = entryForSyms nfa T syms := by
  simp only [entryForSyms, List.filterMap_cons, if_pos he]

theorem entryForSyms_cons_ne (nfa : NFAb) (T : List Nat) (s0 : Char) (syms : List Char)
    (he : ¬(moveClosure nfa T s0).isEmpty = true) :
    entryForSyms nfa T (s0 :: syms) =
      (s0, freeze (moveClosure nfa T s0)) :: entryForSyms nfa T syms := by
  simp only [entryForSyms, List.filterMap_cons, if_neg he]

theorem entryForSyms_lookup_not_mem (nfa : NFAb) (T : List Nat) :
    ∀ (syms : List Char) (sym : Char), sym ∉ syms →
      (entryForSyms nfa T syms).lookup sym = none := by
  intro syms
  induction syms with
  | nil => intro sym _; rfl
  | cons s0 syms ih =>
    intro sym hmem
    have hs : sym ∉ syms := fun h => hmem (List.mem_cons_of_mem _ h)
    have hs0 : sym ≠ s0 := fun h => hmem (by simp [h])
    by_cases he : (moveClosure nfa T s0).isEmpty
    · rw [entryForSyms_cons_empty nfa T s0 syms he]
      exact ih sym hs
    · rw [entryForSyms_cons_ne nfa T s0 syms he, List.lookup_cons]
      have hbe : (sym == s0) = false := by simp [hs0]
      rw [hbe]
      exact ih sym hs

theorem entryForSyms_lookup (nfa : NFAb) (T : List Nat) :
    ∀ (syms : List Char), syms.Nodup → ∀ sym ∈ syms,
      (entryForSyms nfa T syms).lookup sym =
        if (moveClosure nfa T sym).isEmpty then none
        else some (freeze (moveClosure nfa T sym)) := by
  intro syms
  induction syms with
  | nil => intro _ sym h; simp at h
  | cons s0 syms ih =>
    intro hnd sym hmem
    obtain ⟨hnot, hnd2⟩ := List.nodup_cons.mp hnd
    rcases List.mem_cons.mp hmem with rfl | hs
    · by_cases he : (moveClosure nfa T sym).isEmpty
      · rw [entryForSyms_cons_empty nfa T sym syms he, if_pos he]
        exact entryForSyms_lookup_not_mem nfa T syms sym hnot
      · rw [entryForSyms_cons_ne nfa T sym syms he, if_neg he, List.lookup_cons]
        simp
    · have hne : sym ≠ s0 := fun h => hnot (h ▸ hs)
      by_cases he : (moveClosure nfa T s0).isEmpty
      · rw [entryForSyms_cons_empty nfa T s0 syms he]
        exact ih hnd2 sym hs
      · rw [entryForSyms_cons_ne nfa T s0 syms he, List.lookup_cons]
        have hbe : (sym == s0) = false := by simp [hne]
        rw [hbe]
        exact ih hnd2 sym hs

theorem entryForSyms_keys_sublist (nfa : NFAb) (T : List Nat) :
    ∀ (syms : List Char), ((entryForSyms nfa T syms).map Prod.fst).Sublist syms := by
  intro syms
  induction syms with
  | nil => simp [entryForSyms]
  | cons s0 syms ih =>
    by_cases he : (moveClosure nfa T s0).isEmpty
    · rw [entryForSyms_cons_empty nfa T s0 syms he]
      exact ih.trans (List.sublist_cons_self s0 syms)
    · rw [entryForSyms_cons_ne nfa T s0 syms he]
      simp only [List.map_cons]
      exact List.Sublist.cons₂ s0 ih

theorem entryForSyms_mem (nfa : NFAb) (T : List Nat) (syms : List Char) (sym : Char)
    (U : List Nat) (h : (sym, U) ∈ entryForSyms nfa T syms) :
    sym ∈ syms ∧ ¬(moveClosure nfa T sym).isEmpty = true ∧
      U = freeze (moveClosure nfa T sym) := by
  simp only [entryForSyms, List.mem_filterMap] at h
  obtain ⟨a, ha, hfa⟩ := h
  by_cases he : (moveClosure nfa T a).isEmpty
  · rw [if_pos he] at hfa; simp at hfa
  · rw [if_neg he] at hfa
    simp only [Option.some.injEq, Prod.mk.injEq] at hfa
    obtain ⟨rfl, h2⟩ := hfa
    exact ⟨ha, he, h2.symm⟩

theorem processSymbols_unm_len (nfa : NFAb) (T : List Nat) :
    ∀ (syms : List Char) (sts unm : List (List Nat)) (entry : List (Char × List Nat)),
      unm.length ≤ (processSymbols nfa T syms sts unm entry).2.1.length := by
  intro syms
  induction syms with
  | nil => intro sts unm entry; simp [processSymbols]
  | cons sym syms ih =>
    intro sts unm entry
    by_cases he : (moveClosure nfa T sym).isEmpty
    · simp only [processSymbols, if_pos he]; exact ih sts unm entry
    · by_cases hin : freeze (moveClosure nfa T sym) ∈ sts
      · simp only [processSymbols, if_neg he, if_pos hin]; exact ih sts unm _
      · simp only [processSymbols, if_neg he, if_neg hin]
        have := ih (sts ++ [freeze (moveClosure nfa T sym)])
          (freeze (moveClosure nfa T sym) :: unm) (entry ++ [(sym, freeze (moveClosure nfa T sym))])
        simp only [List.length_cons] at this
        omega

/-! ### The subset-construction loop invariant -/

theorem dfaLoop_sound (nfa : NFAb) :
    ∀ (fuel : Nat) (sts unm : List (List Nat)) (tra : DTrans),
      DInv nfa sts unm tra →
      2 * (2 ^ (univB nfa).length - sts.length) + unm.length ≤ fuel →
      DInv nfa (dfaLoop nfa fuel sts unm tra).1 [] (dfaLoop nfa fuel sts unm tra).2 ∧
      sts ⊆ (dfaLoop nfa fuel sts unm tra).1 := by
  intro fuel
  induction fuel with
  | zero =>
    intro sts unm tra hinv hm
    have hunm : unm = [] := by
      cases unm with
      | nil => rfl
      | cons a l => simp [List.length_cons] at hm
    subst hunm
    exact ⟨hinv, fun X hX => hX⟩
  | succ fuel ih =>
    intro sts unm tra hinv hm
    cases unm with
    | nil => exact ⟨hinv, fun X hX => hX⟩
    | cons T unm =>
      obtain ⟨hnd, hprops, hunm, hent, hkeys, hcov⟩ := hinv
      have hT : T ∈ sts := hunm T (by simp)
      have heq : dfaLoop nfa (fuel + 1) sts (T :: unm) tra =
          dfaLoop nfa fuel (processSymbols nfa T nfa.alphabet sts unm []).1
            (processSymbols nfa T nfa.alphabet sts unm []).2.1
            ((T, (processSymbols nfa T nfa.alphabet sts unm []).2.2) :: tra) := rfl
      rw [heq]
      have hentry : (processSymbols nfa T nfa.alphabet sts unm []).2.2 = entryFor nfa T := by
        rw [processSymbols_entry]
        simp [entryFor]
      have hprops2 : ∀ X ∈ (processSymbols nfa T nfa.alphabet sts unm []).1,
          (∀ a ∈ X, a ∈ univB nfa) ∧ X.Sorted (· ≤ ·) ∧ X.Nodup := by
        intro X hX
        rcases processSymbols_sts_mem nfa T nfa.alphabet sts unm [] X hX with
          h | ⟨_, sy, _, _, hXf⟩
        · exact hprops X h
        · subst hXf
          exact ⟨fun a ha => moveClosure_sub_univB nfa T sy a ((freeze_mem _ a).mp ha),
            freeze_sorted _, freeze_nodup _⟩
      have hinv2 : DInv nfa (processSymbols nfa T nfa.alphabet sts unm []).1
          (processSymbols nfa T nfa.alphabet sts unm []).2.1
          ((T, (processSymbols nfa T nfa.alphabet sts unm []).2.2) :: tra) := by
        refine ⟨processSymbols_nodup nfa T nfa.alphabet sts unm [] hnd, hprops2, ?_, ?_, ?_, ?_⟩
        · intro X hX
          rcases processSymbols_unm_mem nfa T nfa.alphabet sts unm [] X hX with h | h
          · exact processSymbols_sts_sub nfa T nfa.alphabet sts unm []
              (hunm X (List.mem_cons_of_mem _ h))
          · exact h
        · intro p hp
          rcases List.mem_cons.mp hp with rfl | h
          · exact hentry ▸ rfl
          · exact hent p h
        · intro p hp
          rcases List.mem_cons.mp hp with rfl | h
          · exact processSymbols_sts_sub nfa T nfa.alphabet sts unm [] hT
          · exact processSymbols_sts_sub nfa T nfa.alphabet sts unm [] (hkeys p h)
        · intro X hX
          by_cases hXT : X = T
          · subst hXT
            refine Or.inr ⟨⟨(processSymbols nfa X nfa.alphabet sts unm []).2.2, by simp⟩, ?_⟩
            intro sym hsym hne
            exact processSymbols_covers nfa X nfa.alphabet sts unm [] sym hsym hne
          · rcases processSymbols_sts_mem nfa T nfa.alphabet sts unm [] X hX with
              hXsts | ⟨hXunm, _⟩
            · rcases hcov X hXsts with hXunm0 | ⟨⟨e, he⟩, hc⟩
              · rcases List.mem_cons.mp hXunm0 with h | h
                · exact absurd h hXT
                · exact Or.inl (processSymbols_unm_sub nfa T nfa.alphabet sts unm [] h)
              · exact Or.inr ⟨⟨e, List.mem_cons_of_mem _ he⟩,
                  fun sym hs hne =>
                    processSymbols_sts_sub nfa T nfa.alphabet sts unm [] (hc sym hs hne)⟩
            · exact Or.inl hXunm
      have hcap : (processSymbols nfa T nfa.alphabet sts unm []).1.length ≤
          2 ^ (univB nfa).length :=
        canonical_length_bound nfa _ (processSymbols_nodup nfa T nfa.alphabet sts unm [] hnd)
          hprops2
      have hmeasure : 2 * (2 ^ (univB nfa).length -
            (processSymbols nfa T nfa.alphabet sts unm []).1.length) +
          (processSymbols nfa T nfa.alphabet sts unm []).2.1.length ≤ fuel := by
        have hcount := processSymbols_count nfa T nfa.alphabet sts unm []
        have hulen := processSymbols_unm_len nfa T nfa.alphabet sts unm []
        simp only [List.length_cons] at hm
        omega
      have h := ih _ _ _ hinv2 hmeasure
      exact ⟨h.1, (processSymbols_sts_sub nfa T nfa.alphabet sts unm []).trans h.2⟩

theorem nfa_to_dfa_sound (nfa : NFAb) :
    (nfa_to_dfa nfa).start_state ∈ (nfa_to_dfa nfa).states ∧
    DInv nfa (nfa_to_dfa nfa).states [] (nfa_to_dfa nfa).transitions := by
  have hS0 : ∀ a ∈ freeze (nfa.epsilon_closure [nfa.start_state]), a ∈ univB nfa :=
    fun a ha => start_closure_sub_univB nfa a ((freeze_mem _ a).mp ha)
  have hinv0 : DInv nfa [freeze (nfa.epsilon_closure [nfa.start_state])]
      [freeze (nfa.epsilon_closure [nfa.start_state])] [] := by
    refine ⟨by simp, ?_, by simp, by simp, by simp, ?_⟩
    · intro T hT
      rw [List.mem_singleton.mp hT]
      exact ⟨hS0, freeze_sorted _, freeze_nodup _⟩
    · intro T hT
      exact Or.inl hT
  have hm : 2 * (2 ^ (univB nfa).length - 1) + 1 ≤ dfaFuel nfa := by
    simp only [dfaFuel]
    omega
  have h := dfaLoop_sound nfa (dfaFuel nfa) [freeze (nfa.epsilon_closure [nfa.start_state])]
    [freeze (nfa.epsilon_closure [nfa.start_state])] [] hinv0
    (by simpa using hm)
  exact ⟨h.2 (List.mem_singleton_self _), h.1⟩

theorem nfa_to_dfa_lookup (nfa : NFAb) (T : List Nat) (hT : T ∈ (nfa_to_dfa nfa).states) :
    (nfa_to_dfa nfa).transitions.lookup T = some (entryFor nfa T) ∧
    (∀ sym ∈ nfa.alphabet, ¬(moveClosure nfa T sym).isEmpty = true →
      freeze (moveClosure nfa T sym) ∈ (nfa_to_dfa nfa).states) := by
  obtain ⟨-, -, -, hent, -, hcov⟩ := (nfa_to_dfa_sound nfa).2
  rcases hcov T hT with h | ⟨⟨e, he⟩, hc⟩
  · simp at h
  · exact ⟨lookup_of_uniform (entryFor nfa) _ hent T e he, hc⟩

/-! ### Claim theorems: determinism and accept marking -/

/-- C4: the DFA produced by `nfa_to_dfa` is deterministic by construction:
a DFA state's transition entry is unique (two entries recorded for the same
state are equal), no entry maps one symbol twice, every transition target is
itself a discovered DFA state, and two DFA states that are equal as sets of
NFA states are the identical (canonical) state value.  The alphabet of a
well-formed NFA is a set, hence duplicate-free. -/
theorem c4_dfa_deterministic (nfa : NFAb) (hA : nfa.alphabet.Nodup) :
    (∀ T e1 e2, (T, e1) ∈ (nfa_to_dfa nfa).transitions →
      (T, e2) ∈ (nfa_to_dfa nfa).transitions → e1 = e2) ∧
    (∀ T e, (T, e) ∈ (nfa_to_dfa nfa).transitions → (e.map Prod.fst).Nodup) ∧
    (∀ T e sym U, (T, e) ∈ (nfa_to_dfa nfa).transitions → (sym, U) ∈ e →
      U ∈ (nfa_to_dfa nfa).states) ∧
    (∀ T1 T2, T1 ∈ (nfa_to_dfa nfa).states → T2 ∈ (nfa_to_dfa nfa).states →
      (∀ a, a ∈ T1 ↔ a ∈ T2) → T1 = T2) := by
  obtain ⟨-, hprops, -, hent, hkeys, -⟩ := (nfa_to_dfa_sound nfa).2
  refine ⟨?_, ?_, ?_, ?_⟩
  · intro T e1 e2 h1 h2
    rw [show e1 = entryFor nfa T from hent (T, e1) h1,
      show e2 = entryFor nfa T from hent (T, e2) h2]
  · intro T e h
    rw [show e = entryFor nfa T from hent (T, e) h]
    exact List.Nodup.sublist (entryForSyms_keys_sublist nfa T nfa.alphabet) hA
  · intro T e sym U he hmem
    rw [show e = entryFor nfa T from hent (T, e) he] at hmem
    obtain ⟨hsym, hne, hU⟩ := entryForSyms_mem nfa T nfa.alphabet sym U hmem
    rw [hU]
    exact (nfa_to_dfa_lookup nfa T (hkeys (T, e) he)).2 sym hsym hne
  · intro T1 T2 h1 h2 hm
    exact eq_of_canonical T1 T2 (hprops T1 h1).2.1 (hprops T2 h2).2.1
      (hprops T1 h1).2.2 (hprops T2 h2).2.2 hm

/-- Witness for C4 at the example NFA of `nfa_to_dfa.py` (`'ab*'` over
states `{0, 1, 2}`). -/
theorem c4_dfa_deterministic_witness :
    (['a', 'b'] : List Char).Nodup ∧
    ((∀ T e1 e2,
        (T, e1) ∈ (nfa_to_dfa (NFAb.mk [0, 1, 2] ['a', 'b']
          [(0, [(some 'a', [1])]), (1, [(some 'b', [1]), (none, [2])])] 0 [2])).transitions →
        (T, e2) ∈ (nfa_to_dfa (NFAb.mk [0, 1, 2] ['a', 'b']
          [(0, [(some 'a', [1])]), (1, [(some 'b', [1]), (none, [2])])] 0 [2])).transitions →
        e1 = e2) ∧
      (∀ T e, (T, e) ∈ (nfa_to_dfa (NFAb.mk [0, 1, 2] ['a', 'b']
          [(0, [(some 'a', [1])]), (1, [(some 'b', [1]), (none, [2])])] 0 [2])).transitions →
        (e.map Prod.fst).Nodup) ∧
      (∀ T e sym U, (T, e) ∈ (nfa_to_dfa (NFAb.mk [0, 1, 2] ['a', 'b']
          [(0, [(some 'a', [1])]), (1, [(some 'b', [1]), (none, [2])])] 0 [2])).transitions →
        (sym, U) ∈ e →
        U ∈ (nfa_to_dfa (NFAb.mk [0, 1, 2] ['a', 'b']
          [(0, [(some 'a', [1])]), (1, [(some 'b', [1]), (none, [2])])] 0 [2])).states) ∧
      (∀ T1 T2, T1 ∈ (nfa_to_dfa (NFAb.mk [0, 1, 2] ['a', 'b']
          [(0, [(some 'a', [1])]), (1, [(some 'b', [1]), (none, [2])])] 0 [2])).states →
        T2 ∈ (nfa_to_dfa (NFAb.mk [0, 1, 2] ['a', 'b']
          [(0, [(some 'a', [1])]), (1, [(some 'b', [1]), (none, [2])])] 0 [2])).states →
        (∀ a, a ∈ T1 ↔ a ∈ T2) → T1 = T2)) :=
  ⟨by decide,
    c4_dfa_deterministic (NFAb.mk [0, 1, 2] ['a', 'b']
      [(0, [(some 'a', [1])]), (1, [(some 'b', [1]), (none, [2])])] 0 [2]) (by decide)⟩

theorem nfa_to_dfa_accept_mem (nfa : NFAb) (T : List Nat) :
    T ∈ (nfa_to_dfa nfa).accept_states ↔
      T ∈ (nfa_to_dfa nfa).states ∧ ∃ s ∈ T, s ∈ nfa.accept_states := by
  show T ∈ List.filter _ _ ↔ _
  rw [List.mem_filter]
  constructor
  · rintro ⟨h1, h2⟩
    refine ⟨h1, ?_⟩
    rw [List.any_eq_true] at h2
    obtain ⟨s, hs, hc⟩ := h2
    exact ⟨s, hs, List.elem_iff.mp hc⟩
  · rintro ⟨h1, s, hs, hc⟩
    refine ⟨h1, ?_⟩
    rw [List.any_eq_true]
    exact ⟨s, hs, List.elem_iff.mpr hc⟩

/-- C8: a DFA state produced by `nfa_to_dfa` (itself a set of NFA states)
is in the DFA's accept set exactly when it intersects the NFA's accept set
(`any(s in nfa.accept_states for s in state_set)`). -/
theorem c8_accept_marking (nfa : NFAb) (T : List Nat) :
    T ∈ (nfa_to_dfa nfa).accept_states ↔
      T ∈ (nfa_to_dfa nfa).states ∧ ∃ s ∈ T, s ∈ nfa.accept_states :=
  nfa_to_dfa_accept_mem nfa T

/-! ### Relating the two transition-map representations -/

theorem nfaOfFrag_transitions (f : Frag) : (nfaOfFrag f).transitions = toTransB f.2.2 := rfl

theorem nfaOfFrag_accept (f : Frag) : (nfaOfFrag f).accept_states = f.2.1 := rfl

theorem nfaOfFrag_alphabet (f : Frag) : (nfaOfFrag f).alphabet = alphabetOfA f.2.2 := rfl

theorem targetsA_nil_of_not_source (tr : Edges) (s : Nat) (hs : s ∉ sourcesA tr)
    (sym : Option Char) : targetsA tr s sym = [] := by
  rw [targetsA, List.filterMap_eq_nil_iff]
  intro e he
  have hne : e.1 ≠ s := by
    intro h
    apply hs
    simp only [sourcesA, List.mem_dedup, List.mem_map]
    exact ⟨e, he, h⟩
  simp [hne]

theorem targetsA_nil_of_not_sym (tr : Edges) (s : Nat) (sym : Option Char)
    (hsym : sym ∉ symsAtA tr s) : targetsA tr s sym = [] := by
  rw [targetsA, List.filterMap_eq_nil_iff]
  intro e he
  by_cases h1 : e.1 = s
  · have hne : e.2.1 ≠ sym := by
      intro h2
      apply hsym
      simp only [symsAtA, List.mem_dedup, List.mem_map, List.mem_filter]
      exact ⟨e, ⟨he, by simp [h1]⟩, h2⟩
    simp [hne]
  · simp [h1]

theorem targetsB_toTransB (tr : Edges) (s : Nat) (sym : Option Char) :
    targetsB (toTransB tr) s sym = targetsA tr s sym := by
  unfold targetsB rowB toTransB
  rw [lookup_map_self (fun s => (symsAtA tr s).map (fun sym => (sym, targetsA tr s sym)))
    (sourcesA tr) s]
  by_cases hs : s ∈ sourcesA tr
  · rw [if_pos hs]
    simp only [Option.getD_some]
    rw [lookup_map_self (fun sym => targetsA tr s sym) (symsAtA tr s) sym]
    by_cases hsym : sym ∈ symsAtA tr s
    · rw [if_pos hsym]
      rfl
    · rw [if_neg hsym]
      simp only [Option.getD_none]
      exact (targetsA_nil_of_not_sym tr s sym hsym).symm
  · rw [if_neg hs]
    simp only [Option.getD_none]
    exact (targetsA_nil_of_not_source tr s hs sym).symm

theorem allTargetsB_toTransB_mem (tr : Edges) (a : Nat) :
    a ∈ allTargetsB (toTransB tr) ↔ a ∈ allTargetsA tr := by
  constructor
  · intro h
    simp only [allTargetsB, List.mem_dedup, List.mem_flatMap] at h
    obtain ⟨r, hr, p, hp, ha⟩ := h
    simp only [toTransB, List.mem_map] at hr
    obtain ⟨s, hs, rfl⟩ := hr
    simp only [List.mem_map] at hp
    obtain ⟨sym, hsym, rfl⟩ := hp
    exact targetsA_sub_allTargets tr s sym ha
  · intro h
    simp only [allTargetsA, List.mem_dedup, List.mem_map] at h
    obtain ⟨e, he, rfl⟩ := h
    have hs : e.1 ∈ sourcesA tr := by
      simp only [sourcesA, List.mem_dedup, List.mem_map]
      exact ⟨e, he, rfl⟩
    have hsym : e.2.1 ∈ symsAtA tr e.1 := by
      simp only [symsAtA, List.mem_dedup, List.mem_map, List.mem_filter]
      exact ⟨e, ⟨he, by simp⟩, rfl⟩
    have hta : e.2.2 ∈ targetsA tr e.1 e.2.1 := by
      simp only [targetsA, List.mem_filterMap]
      exact ⟨e, he, by simp⟩
    simp only [allTargetsB, List.mem_dedup, List.mem_flatMap]
    refine ⟨(e.1, (symsAtA tr e.1).map (fun sym => (sym, targetsA tr e.1 sym))), ?_,
      (e.2.1, targetsA tr e.1 e.2.1), ?_, hta⟩
    · simp only [toTransB, List.mem_map]
      exact ⟨e.1, hs, rfl⟩
    · simp only [List.mem_map]
      exact ⟨e.2.1, hsym, rfl⟩

theorem nodup_length_eq_of_mem_iff (l1 l2 : List Nat) (h1 : l1.Nodup) (h2 : l2.Nodup)
    (hm : ∀ a, a ∈ l1 ↔ a ∈ l2) : l1.length = l2.length := by
  have hts : l1.toFinset = l2.toFinset := by
    ext a
    simp only [List.mem_toFinset]
    exact hm a
  rw [← List.toFinset_card_of_nodup h1, ← List.toFinset_card_of_nodup h2, hts]

theorem closureFuelB_toTransB (tr : Edges) (S : List Nat) :
    closureFuelB (toTransB tr) S = closureFuelA tr S := by
  unfold closureFuelB closureFuelA
  rw [nodup_length_eq_of_mem_iff (allTargetsB (toTransB tr)) (allTargetsA tr)
    (List.nodup_dedup _) (List.nodup_dedup _) (allTargetsB_toTransB_mem tr)]

theorem epsilon_closure_toTransB (f : Frag) (S : List Nat) :
    (nfaOfFrag f).epsilon_closure S = eps_closure S f.2.2 := by
  show closureAux (epsTargetsB (toTransB f.2.2)) (closureFuelB (toTransB f.2.2) S) S.dedup S =
    closureAux (epsTargetsA f.2.2) (closureFuelA f.2.2 S) S.dedup S
  rw [show epsTargetsB (toTransB f.2.2) = epsTargetsA f.2.2 from
    funext fun s => targetsB_toTransB f.2.2 s none]
  rw [closureFuelB_toTransB]

/-! ### Closure membership reasoning -/

theorem eps_closure_mono_mem (S1 S2 : List Nat) (tr : Edges)
    (h : ∀ x ∈ S1, x ∈ eps_closure S2 tr) :
    ∀ a ∈ eps_closure S1 tr, a ∈ eps_closure S2 tr :=
  eps_closure_le S1 tr (fun x => x ∈ eps_closure S2 tr)
    (fun x hx d hd => eps_closure_closed S2 tr x hx d hd) h

theorem eps_closure_mem_congr (S1 S2 : List Nat) (tr : Edges)
    (hm : ∀ a, a ∈ S1 ↔ a ∈ S2) (a : Nat) :
    a ∈ eps_closure S1 tr ↔ a ∈ eps_closure S2 tr := by
  constructor
  · exact fun h => eps_closure_mono_mem S1 S2 tr
      (fun x hx => eps_closure_sub S2 tr ((hm x).mp hx)) a h
  · exact fun h => eps_closure_mono_mem S2 S1 tr
      (fun x hx => eps_closure_sub S1 tr ((hm x).mpr hx)) a h

theorem eps_closure_union_mem (M : List Nat) (tr : Edges) (a : Nat) :
    a ∈ eps_closure M tr ↔ ∃ t ∈ M, a ∈ eps_closure [t] tr := by
  constructor
  · intro h
    refine eps_closure_le M tr (fun x => ∃ t ∈ M, x ∈ eps_closure [t] tr) ?_ ?_ a h
    · rintro x ⟨t, ht, hx⟩ d hd
      exact ⟨t, ht, eps_closure_closed [t] tr x hx d hd⟩
    · intro x hx
      exact ⟨x, hx, eps_closure_sub [x] tr (by simp)⟩
  · rintro ⟨t, ht, hx⟩
    refine eps_closure_le [t] tr (fun x => x ∈ eps_closure M tr)
      (fun x hx2 d hd => eps_closure_closed M tr x hx2 d hd) ?_ a hx
    intro x hx2
    rw [List.mem_singleton.mp hx2]
    exact eps_closure_sub M tr ht

theorem moveClosure_nfaOfFrag_mem (f : Frag) (T : List Nat) (sym : Char) (a : Nat) :
    a ∈ moveClosure (nfaOfFrag f) T sym ↔ a ∈ eps_closure (moveA T sym f.2.2) f.2.2 := by
  simp only [moveClosure, List.mem_dedup, List.mem_flatMap]
  rw [eps_closure_union_mem]
  constructor
  · rintro ⟨st, hst, t, ht, hcl⟩
    rw [nfaOfFrag_transitions, targetsB_toTransB] at ht
    rw [epsilon_closure_toTransB] at hcl
    refine ⟨t, ?_, hcl⟩
    simp only [moveA, List.mem_dedup, List.mem_flatMap]
    exact ⟨st, hst, ht⟩
  · rintro ⟨t, ht, hcl⟩
    simp only [moveA, List.mem_dedup, List.mem_flatMap] at ht
    obtain ⟨st, hst, hta⟩ := ht
    refine ⟨st, hst, t, ?_, ?_⟩
    · rw [nfaOfFrag_transitions, targetsB_toTransB]
      exact hta
    · rw [epsilon_closure_toTransB]
      exact hcl

theorem moveClosure_congr (nfa : NFAb) (T1 T2 : List Nat) (sym : Char)
    (hm : ∀ a, a ∈ T1 ↔ a ∈ T2) (a : Nat) :
    a ∈ moveClosure nfa T1 sym ↔ a ∈ moveClosure nfa T2 sym := by
  simp only [moveClosure, List.mem_dedup, List.mem_flatMap]
  constructor
  · rintro ⟨st, hst, h⟩
    exact ⟨st, (hm st).mp hst, h⟩
  · rintro ⟨st, hst, h⟩
    exact ⟨st, (hm st).mpr hst, h⟩

theorem isEmpty_eq_of_mem_iff (l1 l2 : List Nat) (hm : ∀ a, a ∈ l1 ↔ a ∈ l2) :
    l1.isEmpty = l2.isEmpty := by
  rw [Bool.eq_iff_iff, List.isEmpty_iff, List.isEmpty_iff,
    List.eq_nil_iff_forall_not_mem, List.eq_nil_iff_forall_not_mem]
  constructor
  · intro h a ha
    exact h a ((hm a).mpr ha)
  · intro h a ha
    exact h a ((hm a).mp ha)

theorem any_eq_of_mem_iff (l1 l2 : List Nat) (p : Nat → Bool)
    (hm : ∀ a, a ∈ l1 ↔ a ∈ l2) : l1.any p = l2.any p := by
  rw [Bool.eq_iff_iff, List.any_eq_true, List.any_eq_true]
  constructor
  · rintro ⟨x, hx, hp⟩
    exact ⟨x, (hm x).mp hx, hp⟩
  · rintro ⟨x, hx, hp⟩
    exact ⟨x, (hm x).mpr hx, hp⟩

/-! ### DFA execution simulates subset simulation -/

theorem nfa_to_dfa_alphabet (nfa : NFAb) : (nfa_to_dfa nfa).alphabet = nfa.alphabet := rfl

theorem moveClosure_nil_of_out (nfa : NFAb) (sym : Char)
    (h : ∀ st, targetsB nfa.transitions st (some sym) = []) (T : List Nat) :
    moveClosure nfa T sym = [] := by
  rw [moveClosure]
  have hflat : T.flatMap (fun st => (targetsB nfa.transitions st (some sym)).flatMap
      (fun t => nfa.epsilon_closure [t])) = [] := by
    rw [List.flatMap_eq_nil_iff]
    intro st _
    rw [h st]
    rfl
  rw [hflat]
  rfl

theorem simB_eq_acceptsFrom (nfa : NFAb) (hA : nfa.alphabet.Nodup)
    (hOut : ∀ (sym : Char) (st : Nat), sym ∉ nfa.alphabet →
      targetsB nfa.transitions st (some sym) = []) :
    ∀ (s : List Char) (cur T : List Nat), (∀ a, a ∈ cur ↔ a ∈ T) →
      T ∈ (nfa_to_dfa nfa).states →
      simB nfa cur s = acceptsFrom (nfa_to_dfa nfa) T s := by
  intro s
  induction s with
  | nil =>
    intro cur T hm hT
    show cur.any _ = (nfa_to_dfa nfa).accept_states.contains T
    rw [Bool.eq_iff_iff, List.any_eq_true]
    constructor
    · rintro ⟨x, hx, hc⟩
      refine List.elem_iff.mpr ((nfa_to_dfa_accept_mem nfa T).mpr ⟨hT, x, (hm x).mp hx, ?_⟩)
      exact List.elem_iff.mp hc
    · intro hc
      obtain ⟨-, x, hxT, hxacc⟩ := (nfa_to_dfa_accept_mem nfa T).mp (List.elem_iff.mp hc)
      exact ⟨x, (hm x).mpr hxT, List.elem_iff.mpr hxacc⟩
  | cons sym s ih =>
    intro cur T hm hT
    have hmc : ∀ a, a ∈ moveClosure nfa cur sym ↔ a ∈ moveClosure nfa T sym :=
      moveClosure_congr nfa cur T sym hm
    have hemp : (moveClosure nfa cur sym).isEmpty = (moveClosure nfa T sym).isEmpty :=
      isEmpty_eq_of_mem_iff _ _ hmc
    by_cases hsym : sym ∈ nfa.alphabet
    · have hlook := (nfa_to_dfa_lookup nfa T hT).1
      have hentry := entryForSyms_lookup nfa T nfa.alphabet hA sym hsym
      by_cases hne : (moveClosure nfa T sym).isEmpty
      · have hne2 : (moveClosure nfa cur sym).isEmpty = true := by rw [hemp]; exact hne
        simp only [simB, if_pos hne2, acceptsFrom, nfa_to_dfa_alphabet, if_pos hsym,
          hlook, Option.getD_some]
        rw [show (entryFor nfa T).lookup sym = none from by
          rw [entryFor, hentry, if_pos hne]]
      · have hne2 : ¬(moveClosure nfa cur sym).isEmpty = true := by rw [hemp]; exact hne
        simp only [simB, if_neg hne2, acceptsFrom, nfa_to_dfa_alphabet, if_pos hsym,
          hlook, Option.getD_some]
        rw [show (entryFor nfa T).lookup sym =
            some (freeze (moveClosure nfa T sym)) from by
          rw [entryFor, hentry, if_neg hne]]
        exact ih (moveClosure nfa cur sym) (freeze (moveClosure nfa T sym))
          (fun a => by rw [freeze_mem]; exact hmc a)
          ((nfa_to_dfa_lookup nfa T hT).2 sym hsym hne)
    · have hTnil : moveClosure nfa T sym = [] :=
        moveClosure_nil_of_out nfa sym (fun st => hOut sym st hsym) T
      have hcnil : (moveClosure nfa cur sym).isEmpty = true := by
        rw [hemp, hTnil]
        rfl
      simp only [simB, if_pos hcnil, acceptsFrom, nfa_to_dfa_alphabet, if_neg hsym]

/-! ### NFA simulation equals subset simulation over the glue -/

theorem matchesLoop_eq_simB (f : Frag) :
    ∀ (s : List Char) (cur curB : List Nat), (∀ a, a ∈ cur ↔ a ∈ curB) →
      matchesLoop f.2.2 f.2.1 cur s = simB (nfaOfFrag f) curB s := by
  intro s
  induction s with
  | nil =>
    intro cur curB hm
    exact any_eq_of_mem_iff cur curB _ hm
  | cons ch s ih =>
    intro cur curB hm
    have hstep : ∀ a, a ∈ eps_closure (moveA cur ch f.2.2) f.2.2 ↔
        a ∈ moveClosure (nfaOfFrag f) curB ch := by
      intro a
      rw [moveClosure_nfaOfFrag_mem]
      apply eps_closure_mem_congr
      intro x
      simp only [moveA, List.mem_dedup, List.mem_flatMap]
      constructor
      · rintro ⟨st, hst, h⟩
        exact ⟨st, (hm st).mp hst, h⟩
      · rintro ⟨st, hst, h⟩
        exact ⟨st, (hm st).mpr hst, h⟩
    have hemp : (eps_closure (moveA cur ch f.2.2) f.2.2).isEmpty =
        (moveClosure (nfaOfFrag f) curB ch).isEmpty := isEmpty_eq_of_mem_iff _ _ hstep
    by_cases he : (eps_closure (moveA cur ch f.2.2) f.2.2).isEmpty
    · have he2 : (moveClosure (nfaOfFrag f) curB ch).isEmpty = true := by
        rw [← hemp]; exact he
      simp only [matchesLoop, if_pos he, simB, if_pos he2]
    · have he2 : ¬(moveClosure (nfaOfFrag f) curB ch).isEmpty = true := by
        rw [← hemp]; exact he
      simp only [matchesLoop, if_neg he, simB, if_neg he2]
      exact ih _ _ hstep

/-! ### Claim theorem: simulation/execution equivalence -/

/-- C3: for every pattern the pipeline compiles and every input string,
direct NFA simulation (`matches` of `regex_to_NFA.py`) and DFA execution on
the determinized automaton (`nfa_to_dfa` + `DFA.accepts` of
`nfa_to_dfa.py`, over the spec-modelled repackaging `nfaOfFrag` of the
Thompson tuple) return the same boolean. -/
theorem c3_nfa_dfa_equivalence (p s : String) (nfa : Frag)
    (h : compileNFA p = some nfa) :
    matchesNFA nfa s.toList = (nfa_to_dfa (nfaOfFrag nfa)).accepts s.toList := by
  have hA : (nfaOfFrag nfa).alphabet.Nodup := List.nodup_dedup _
  have hOut : ∀ (sym : Char) (st : Nat), sym ∉ (nfaOfFrag nfa).alphabet →
      targetsB (nfaOfFrag nfa).transitions st (some sym) = [] := by
    intro sym st hsym
    rw [nfaOfFrag_transitions, targetsB_toTransB, targetsA, List.filterMap_eq_nil_iff]
    intro e he
    have hlab : e.2.1 ≠ some sym := by
      intro hlabel
      apply hsym
      rw [nfaOfFrag_alphabet]
      simp only [alphabetOfA, List.mem_dedup, List.mem_filterMap]
      exact ⟨e, he, hlabel⟩
    simp [hlab]
  have hstart : (nfa_to_dfa (nfaOfFrag nfa)).start_state ∈ (nfa_to_dfa (nfaOfFrag nfa)).states :=
    (nfa_to_dfa_sound (nfaOfFrag nfa)).1
  show matchesLoop nfa.2.2 nfa.2.1 (eps_closure [nfa.1] nfa.2.2) s.toList =
    acceptsFrom (nfa_to_dfa (nfaOfFrag nfa)) (nfa_to_dfa (nfaOfFrag nfa)).start_state s.toList
  rw [matchesLoop_eq_simB nfa s.toList (eps_closure [nfa.1] nfa.2.2)
    (eps_closure [nfa.1] nfa.2.2) (fun a => Iff.rfl)]
  apply simB_eq_acceptsFrom (nfaOfFrag nfa) hA hOut s.toList
    (eps_closure [nfa.1] nfa.2.2)
    (freeze ((nfaOfFrag nfa).epsilon_closure [(nfaOfFrag nfa).start_state]))
  · intro a
    rw [freeze_mem, epsilon_closure_toTransB]
    exact Iff.rfl
  · exact hstart

/-- Witness for C3 at the pattern `"a"` and the input `"a"`. -/
theorem c3_nfa_dfa_equivalence_witness :
    compileNFA "a" = some ((0, [1], [(0, some 'a', 1)]) : Frag) ∧
    matchesNFA ((0, [1], [(0, some 'a', 1)]) : Frag) "a".toList =
      (nfa_to_dfa (nfaOfFrag ((0, [1], [(0, some 'a', 1)]) : Frag))).accepts "a".toList :=
  ⟨by decide, c3_nfa_dfa_equivalence "a" "a" ((0, [1], [(0, some 'a', 1)]) : Frag) (by decide)⟩
